import Mathlib

/-!
Verification of the AI code-review GitHub action (clearideas/ai-code-review-github-action)
against its natural-language specification.

The development shallowly embeds the JavaScript source of the action:

* the v1.0.x entry point (first copy in src/src/review.js): strict JSON decode
  with a forgiving zod schema, the robust-parsing fallback cascade
  (embedded-JSON extraction, pattern-based issue extraction, generic
  parsing-error review);
* the v1.1.x entry point (src/unnamed/part_001): the marker-delimited
  plain-text extractor with the OVERALL RISK token and the
  [SEVERITY] Title - file:line issue pattern;
* the shared text-processing helpers: file classification, secret redaction,
  payload budgeting, markdown rendering.

Strings are modelled as lists of Lean characters.  JavaScript string lengths
count UTF-16 units; every input considered here stays inside the basic
multilingual plane, where the two notions agree.  Regular expressions from the
source are hand-compiled to executable matchers; each matcher's definition
cites the regex it implements and documents the backtracking order it
realizes.  Where the JavaScript engine's behaviour is only partially modelled
(Unicode case mapping, numeric corner values) a comment at the definition
states the restriction.
-/

/-! ## Character and string helpers -/

/-- ASCII uppercase mapping plus the two non-ASCII code points exercised in
this development that JavaScript's full-Unicode toUpperCase sends into
ASCII: the long s U+017F maps to S, and the dotless i U+0131 maps to I.
JavaScript implements the full Unicode simple case map; this model restricts
it to the fragment relevant here (all other characters are fixed). -/
def jsToUpperChar (c : Char) : Char :=
  if c = 'ſ' then 'S' else if c = 'ı' then 'I' else c.toUpper

/-- ASCII lowercase mapping.  JavaScript toLowerCase implements the full
Unicode simple case map; every character this development lowercases is
either ASCII or fixed by the map (such as U+017F), where the two agree. -/
def jsToLowerChar (c : Char) : Char := c.toLower

/-- Model of String.prototype.toUpperCase. -/
def jsToUpper (s : String) : String := ⟨s.data.map jsToUpperChar⟩

/-- Model of String.prototype.toLowerCase. -/
def jsToLower (s : String) : String := ⟨s.data.map jsToLowerChar⟩

/-- Whitespace class of the JavaScript regex escape backslash-s, restricted to
its ASCII members (space, tab, line feed, carriage return, vertical tab,
form feed).  The full class also holds Unicode space separators, none of
which occurs in this development. -/
def isJsWs (c : Char) : Bool :=
  c = ' ' || c = '\t' || c = '\n' || c = '\x0d' || c = '\x0b' || c = '\x0c'

/-- ASCII decimal digit. -/
def isDigitB (c : Char) : Bool := '0' ≤ c && c ≤ '9'

/-- ASCII letter. -/
def isAsciiLetter (c : Char) : Bool :=
  (97 ≤ c.toNat && c.toNat ≤ 122) || (65 ≤ c.toNat && c.toNat ≤ 90)

/-- Does the list start with the given prefix? -/
def isPrefixB : List Char → List Char → Bool
  | [], _ => true
  | _ :: _, [] => false
  | p :: ps, c :: cs => p = c && isPrefixB ps cs

/-- Does the list contain the pattern as a contiguous substring?
Model of String.prototype.includes. -/
def containsB : List Char → List Char → Bool
  | s, pat => if isPrefixB pat s then true else
    match s with
    | [] => false
    | _ :: t => containsB t pat

/-- The other case of an ASCII letter; any other character is fixed. -/
def asciiFlipCase (p : Char) : Char :=
  if 65 ≤ p.toNat && p.toNat ≤ 90 then Char.ofNat (p.toNat + 32)
  else if 97 ≤ p.toNat && p.toNat ≤ 122 then Char.ofNat (p.toNat - 32)
  else p

/-- Case-insensitive single-character match in the sense of the i flag
without the u flag, for an ASCII pattern character: the ECMAScript
canonicalisation maps exactly the character itself and its other case onto
the pattern character, and never a non-ASCII character onto an ASCII one. -/
def ciEqChar (pat c : Char) : Bool := c = pat || c = asciiFlipCase pat

/-- Case-insensitive prefix test for an ASCII pattern. -/
def isPrefixCIB : List Char → List Char → Bool
  | [], _ => true
  | _ :: _, [] => false
  | p :: ps, c :: cs => ciEqChar p c && isPrefixCIB ps cs

/-- Case-insensitive containment for an ASCII uppercase pattern. -/
def containsCIB : List Char → List Char → Bool
  | s, pat => if isPrefixCIB pat s then true else
    match s with
    | [] => false
    | _ :: t => containsCIB t pat

/-- Longest prefix satisfying the predicate (the greedy run of a character
class). -/
def takeRun (p : Char → Bool) : List Char → List Char
  | [] => []
  | c :: cs => if p c then c :: takeRun p cs else []

/-- Remainder after the greedy run. -/
def dropRun (p : Char → Bool) : List Char → List Char
  | [] => []
  | c :: cs => if p c then dropRun p cs else c :: cs

/-- Length of the greedy run. -/
def runLen (p : Char → Bool) (cs : List Char) : Nat := (takeRun p cs).length

/-! ## Data model

The Finding and Review records of the action (section 3 of the
specification).  Fields keep the JavaScript value shapes observed by the
verified claims: severities and risks are carried as raw strings, exactly as
the source keeps them, so that membership in the closed severity and risk
sets is a provable property rather than a typing artefact. -/

structure Finding where
  file : String
  line : Option Int
  severity : String
  title : String
  detail : String
  suggestion : Option String
  tags : Option (List String)
  deriving Repr, DecidableEq

structure Review where
  summary : String
  overall_risk : String
  issues : List Finding
  deriving Repr, DecidableEq

/-- The closed severity enumeration. -/
def validSeverities : List String := ["info", "low", "medium", "high", "critical", "security"]

/-- The closed overall-risk enumeration. -/
def validRisks : List String := ["low", "medium", "high", "critical"]

/-! ## Payload budgeting (formatUnifiedPatch, truncate) -/

/-- A changed-file descriptor as returned by the pull-request file listing:
a path and an optional unified-diff patch body. -/
structure ChangedFile where
  filename : String
  patch : Option String
  deriving Repr, DecidableEq

/-- Per-file ceiling of formatUnifiedPatch. -/
def maxFileSize : Nat := 50000

/-- Total-accumulation ceiling of formatUnifiedPatch. -/
def maxTotalSize : Nat := 150000

/-- Body of formatUnifiedPatch: walk the files accumulating the blob and the
total of included patch sizes.  A missing or empty patch is skipped (the
JavaScript guard is falsiness of f.patch), an oversized patch contributes a
stub header, and the first file that would push the running total past the
total ceiling appends the truncation note and stops the walk. -/
def formatUnifiedPatchGo : List ChangedFile → Nat → String
  | [], _ => ""
  | f :: rest, total =>
    match f.patch with
    | none => formatUnifiedPatchGo rest total
    | some p =>
      if p = "" then formatUnifiedPatchGo rest total
      else if p.length > maxFileSize then
        ("\n--- a/" ++ f.filename ++ "\n+++ b/" ++ f.filename ++ "\n[File too large for review]\n")
          ++ formatUnifiedPatchGo rest total
      else if total + p.length > maxTotalSize then
        "\n[Additional files truncated for size]\n"
      else
        ("\n--- a/" ++ f.filename ++ "\n+++ b/" ++ f.filename ++ "\n" ++ p ++ "\n")
          ++ formatUnifiedPatchGo rest (total + p.length)

/-- Model of formatUnifiedPatch from src/src/review.js. -/
def formatUnifiedPatch (files : List ChangedFile) : String :=
  formatUnifiedPatchGo files 0

/-- The suffix the global truncation appends. -/
def truncSuffix : String := "\n\n[...diff truncated for token safety...]"

/-- Model of truncate from src/src/review.js: keep the string when it fits,
otherwise slice to the ceiling and append the truncation suffix. -/
def truncate (s : String) (n : Nat) : String :=
  if s.length ≤ n then s else ⟨s.data.take n⟩ ++ truncSuffix

/-! ## Markdown rendering (escapeMarkdown, asMarkdown) -/

/-- The character class of escapeMarkdown: the markdown-structural characters
the renderer escapes. -/
def isMdSpecial (c : Char) : Bool :=
  c = '[' || c = '\\' || c = ']' || c = '`' || c = '*' || c = '_' ||
  c = '\x7b' || c = '\x7d' || c = '(' || c = ')' || c = '#' || c = '+' ||
  c = '-' || c = '.' || c = '!'

/-- List-level body of escapeMarkdown: prefix every special character with a
backslash. -/
def escapeMdL : List Char → List Char
  | [] => []
  | c :: cs => if isMdSpecial c then '\\' :: c :: escapeMdL cs else c :: escapeMdL cs

/-- Model of escapeMarkdown from src/src/review.js. -/
def escapeMarkdown (s : String) : String := ⟨escapeMdL s.data⟩

/-- One rendered finding line of asMarkdown.  JavaScript template quirks kept:
a line number of 0 and a null line both render no colon suffix (0 is falsy),
and an empty suggestion string is falsy and renders nothing. -/
def findingLine (i : Nat) (iss : Finding) : String :=
  let esT := escapeMarkdown iss.title
  let esD := escapeMarkdown iss.detail
  let esS := match iss.suggestion with
    | some s => if s = "" then "" else escapeMarkdown s
    | none => ""
  let lineStr := match iss.line with
    | some n => if n = 0 then "" else ":" ++ toString n
    | none => ""
  let head := "- **" ++ toString (i + 1) ++ ". [" ++ jsToUpper iss.severity ++ "] " ++
    esT ++ "** — `"
  let tail := lineStr ++ "`\n" ++ "  " ++ esD ++
    (if esS = "" then "" else "\n  **Suggestion:** " ++ esS)
  head ++ iss.file ++ tail

/-- Newline join of the collected lines, as the source's array join
performs it. -/
def joinNl : List String → String
  | [] => ""
  | [s] => s
  | s :: rest => s ++ "\n" ++ joinNl rest

/-- Model of asMarkdown from src/src/review.js: header with the uppercased
risk, the escaped summary, then either the no-issues line or one block per
finding; the blocks are joined with newlines. -/
def asMarkdown (r : Review) : String :=
  let base := ["### 🤖 AI Code Review (" ++ jsToUpper r.overall_risk ++ ")", "",
    escapeMarkdown r.summary, ""]
  let rest := if r.issues.length = 0 then ["**No issues found.** ✅"]
    else ("**Findings (" ++ toString r.issues.length ++ "):**") ::
      (r.issues.enum.map fun p => findingLine p.1 p.2)
  joinNl (base ++ rest)

/-! ## Content classifier (SENSITIVE_FILE_PATTERNS, isSensitiveFile, isAllowedFile) -/

/-- Suffixes of the path starting right after each '/' character.  Together
with the whole path these are the candidate positions of the regex
alternative caret-or-slash used by the segment-anchored patterns. -/
def tailsAfterSlash : List Char → List (List Char)
  | [] => []
  | c :: rest => if c = '/' then rest :: tailsAfterSlash rest else tailsAfterSlash rest

/-- All segment-start positions of a path. -/
def segStarts (s : List Char) : List (List Char) := s :: tailsAfterSlash s

/-- Case-insensitive suffix test for an ASCII pattern (a regex of the shape
pattern-dollar with the i flag). -/
def endsWithCIB (s pat : List Char) : Bool :=
  pat.length ≤ s.length && isPrefixCIB pat (s.drop (s.length - pat.length))

/-- Segment-start tail matching the first sensitive pattern, dot-env with an
optional dotted suffix reaching the end of the path (the trailing dot-star
cannot cross a line feed). -/
def envTailB (t : List Char) : Bool :=
  isPrefixCIB ".ENV".data t &&
    (let r := t.drop 4
     r = [] || (match r with
       | '.' :: rest => !rest.contains '\n'
       | _ => false))

/-- Segment-start tail matching the secret-directory pattern: the word secret
with an optional plural s, followed by a slash or the end of the path. -/
def secretsTailB (t : List Char) : Bool :=
  (isPrefixCIB "SECRETS".data t && ((t.drop 7) = [] || (t.drop 7).head? = some '/')) ||
  (isPrefixCIB "SECRET".data t && ((t.drop 6) = [] || (t.drop 6).head? = some '/'))

/-- Model of isSensitiveFile from src/src/review.js: the disjunction of the
twenty SENSITIVE_FILE_PATTERNS.  The directory patterns (node_modules, dist,
build, coverage, vendor, .git) carry no i flag in the source and match
case-sensitively; the extension and lockfile patterns are case-insensitive
suffix matches; id_rsa and id_dsa are case-insensitive substring matches
with no anchor at all. -/
def isSensitiveFile (filename : String) : Bool :=
  let s := filename.data
  (segStarts s).any envTailB ||
  (segStarts s).any secretsTailB ||
  (segStarts s).any (fun t => isPrefixB "node_modules/".data t) ||
  (segStarts s).any (fun t => isPrefixB "dist/".data t) ||
  (segStarts s).any (fun t => isPrefixB "build/".data t) ||
  (segStarts s).any (fun t => isPrefixB "coverage/".data t) ||
  (segStarts s).any (fun t => isPrefixB "vendor/".data t) ||
  (segStarts s).any (fun t => isPrefixB ".git/".data t) ||
  endsWithCIB s ".PEM".data ||
  endsWithCIB s ".KEY".data ||
  containsCIB s "ID_RSA".data ||
  containsCIB s "ID_DSA".data ||
  endsWithCIB s ".PFX".data ||
  endsWithCIB s ".P12".data ||
  endsWithCIB s ".CRT".data ||
  endsWithCIB s ".CERT".data ||
  endsWithCIB s ".KEYSTORE".data ||
  endsWithCIB s "PACKAGE-LOCK.JSON".data ||
  endsWithCIB s "PNPM-LOCK.YAML".data ||
  endsWithCIB s "YARN.LOCK".data

/-- The basename a JavaScript split-slash-pop yields: the part after the last
slash (the whole path when it has no slash). -/
def basenameOf : List Char → List Char
  | [] => []
  | c :: t => if (c :: t).contains '/' then basenameOf t else c :: t

/-- Model of isAllowedFile from src/src/review.js: a case-insensitive
extension allow-list on the whole path plus the anchored build-file names on
the basename. -/
def isAllowedFile (filename : String) : Bool :=
  let s := filename.data
  let b := basenameOf s
  ([".JS", ".TS", ".TSX", ".JSX", ".VUE", ".PY", ".GO", ".RB", ".JAVA", ".CS",
    ".SH", ".SQL", ".MD", ".JSON", ".YML", ".YAML"].any fun e => endsWithCIB s e.data) ||
  (isPrefixCIB "DOCKERFILE".data b && b.length = 10) ||
  isPrefixCIB "DOCKERFILE.".data b ||
  (isPrefixCIB "MAKEFILE".data b && b.length = 8) ||
  (isPrefixCIB "PACKAGE.JSON".data b && b.length = 12)

/-- Model of filterSafeFiles from src/src/review.js, restricted to its
returned value (the excluded-file log lines are observability only). -/
def filterSafeFiles (files : List ChangedFile) : List ChangedFile :=
  files.filter fun f => !isSensitiveFile f.filename && isAllowedFile f.filename

/-! ## Redactor (sanitizeDiff)

The four replacements of sanitizeDiff, hand-compiled from their regexes.
Each scanner walks the text left to right exactly as a global
String.prototype.replace does: at every position it attempts a match; on
success it emits the placeholder and resumes after the matched span, on
failure it emits one character and moves on.  Fuel equal to the input length
bounds the walk; every step consumes at least one character, so the fuel
never runs out on the wrapper's call. -/

/-- Attempt of the END part of the PEM regex at the current position: the
literal five-dashes END-space, a nonempty dash-free run, then five dashes.
The greedy dash-free run admits a single viable cut (its maximal extent),
because any shorter cut is followed by a non-dash character. -/
def pemEndAt (cs : List Char) : Option Nat :=
  if isPrefixB "-----END ".data cs then
    let rest := cs.drop 9
    let run := takeRun (fun c => c ≠ '-') rest
    if run.length = 0 then none
    else if isPrefixB "-----".data (rest.drop run.length) then
      some (9 + run.length + 5)
    else none
  else none

/-- The lazy middle of the PEM regex: scan forward for the earliest position
where the END part completes, returning the total length consumed from the
start of the scan. -/
def pemSearchEnd : Nat → List Char → Option Nat
  | 0, _ => none
  | fuel + 1, cs =>
    match pemEndAt cs with
    | some n => some n
    | none =>
      match cs with
      | [] => none
      | _ :: t => (pemSearchEnd fuel t).map (· + 1)

/-- Match attempt of the whole PEM regex at the current position, returning
the matched length.  The BEGIN header's greedy dash-free run admits a single
viable cut for the same reason as the END part's. -/
def pemMatchAt (cs : List Char) : Option Nat :=
  if isPrefixB "-----BEGIN ".data cs then
    let rest := cs.drop 11
    let run := takeRun (fun c => c ≠ '-') rest
    if run.length = 0 then none
    else if isPrefixB "-----".data (rest.drop run.length) then
      let mid := rest.drop (run.length + 5)
      match pemSearchEnd (mid.length + 1) mid with
      | some n => some (11 + run.length + 5 + n)
      | none => none
    else none
  else none

/-- Scanner of the PEM replacement. -/
def sanitizePemGo : Nat → List Char → List Char
  | 0, cs => cs
  | _, [] => []
  | fuel + 1, c :: cs =>
    match pemMatchAt (c :: cs) with
    | some n => "[REDACTED_PEM_BLOCK]".data ++ sanitizePemGo fuel ((c :: cs).drop n)
    | none => c :: sanitizePemGo fuel cs

def sanitizePem (cs : List Char) : List Char := sanitizePemGo cs.length cs

/-- Uppercase ASCII letter or digit, the class of the AWS key regex. -/
def isUpperAlnum (c : Char) : Bool := ('A' ≤ c && c ≤ 'Z') || isDigitB c

/-- Match test of the AWS key regex at the current position: the literal AKIA
followed by exactly sixteen uppercase alphanumerics. -/
def awsAt (cs : List Char) : Bool :=
  isPrefixB "AKIA".data cs &&
    (let w := (cs.drop 4).take 16
     w.length = 16 && w.all isUpperAlnum)

/-- Scanner of the AWS key replacement; every match is twenty characters. -/
def sanitizeAwsGo : Nat → List Char → List Char
  | 0, cs => cs
  | _, [] => []
  | fuel + 1, c :: cs =>
    if awsAt (c :: cs) then
      "[REDACTED_AWS_KEY]".data ++ sanitizeAwsGo fuel ((c :: cs).drop 20)
    else c :: sanitizeAwsGo fuel cs

def sanitizeAws (cs : List Char) : List Char := sanitizeAwsGo cs.length cs

/-- Tail class of the GitHub token regex: ASCII alphanumerics, underscore and
dash. -/
def isGhTail (c : Char) : Bool := isAsciiLetter c || isDigitB c || c = '_' || c = '-'

/-- Match attempt of the GitHub token regex at the current position.  The
letter quantifier one-to-three is greedy, but only its maximal extent capped
at three can be followed by the mandatory underscore (any shorter extent is
followed by a further letter), so the match is deterministic.  With the i
flag the letter class covers both cases.  The greedy tail of at least twenty
class characters ends the pattern, so it always takes its maximal extent. -/
def ghAt (cs : List Char) : Option Nat :=
  match cs with
  | c1 :: c2 :: rest =>
    if (c1 = 'g' || c1 = 'G') && (c2 = 'h' || c2 = 'H') then
      let k := min 3 (runLen isAsciiLetter rest)
      if k = 0 then none
      else
        match rest.drop k with
        | '_' :: tail =>
          let t := runLen isGhTail tail
          if t ≥ 20 then some (2 + k + 1 + t) else none
        | _ => none
    else none
  | _ => none

/-- Scanner of the GitHub token replacement. -/
def sanitizeGhGo : Nat → List Char → List Char
  | 0, cs => cs
  | _, [] => []
  | fuel + 1, c :: cs =>
    match ghAt (c :: cs) with
    | some n => "[REDACTED_GITHUB_TOKEN]".data ++ sanitizeGhGo fuel ((c :: cs).drop n)
    | none => c :: sanitizeGhGo fuel cs

def sanitizeGh (cs : List Char) : List Char := sanitizeGhGo cs.length cs

/-- Class of the long-opaque-string regex: ASCII alphanumerics, slash, plus
and equals. -/
def isLongClass (c : Char) : Bool :=
  isAsciiLetter c || isDigitB c || c = '/' || c = '+' || c = '='

/-- Scanner of the long-string replacement.  A maximal class run of forty or
more characters is replaced wholesale (the greedy quantifier with nothing
after it always takes the maximal run); inside a shorter run no position can
start a match, so the scanner skips whole runs, which coincides with the
position-by-position walk of the engine.  The replacement callback in the
source re-tests exactly the class and length the match already guarantees,
so it always returns the placeholder. -/
def sanitizeLongGo : Nat → List Char → List Char
  | 0, cs => cs
  | _, [] => []
  | fuel + 1, c :: cs =>
    if isLongClass c then
      let run := c :: takeRun isLongClass cs
      let after := dropRun isLongClass cs
      (if run.length ≥ 40 then "[REDACTED_LONG_STRING]".data else run) ++
        sanitizeLongGo fuel after
    else c :: sanitizeLongGo fuel cs

def sanitizeLong (cs : List Char) : List Char := sanitizeLongGo cs.length cs

/-- Model of sanitizeDiff from src/src/review.js: the four replacements in
source order, PEM blocks, AWS key identifiers, GitHub tokens, then long
base64-like runs. -/
def sanitizeDiff (s : String) : String :=
  ⟨sanitizeLong (sanitizeGh (sanitizeAws (sanitizePem s.data)))⟩

/-! ## JSON values and JSON.parse

A model of the JSON value space and of JSON.parse, used by the strict decode
path and by the embedded-JSON extraction.  Numbers are carried as exact
rationals; JavaScript truncates them to binary doubles, which agrees with
the rational value on every number any verified claim evaluates.  Escaped
surrogate code units in strings are not modelled (JSON.parse accepts them;
the model rejects a lone or paired surrogate escape — no verified claim
exercises one). -/

inductive JVal where
  | null
  | bool (b : Bool)
  | num (q : Rat)
  | str (s : String)
  | arr (elems : List JVal)
  | obj (fields : List (String × JVal))

/-- JSON insignificant whitespace. -/
def isJsonWs (c : Char) : Bool := c = ' ' || c = '\t' || c = '\n' || c = '\x0d'

def skipJsonWs (cs : List Char) : List Char := dropRun isJsonWs cs

/-- Hexadecimal digit value. -/
def hexVal (c : Char) : Option Nat :=
  let n := c.toNat
  if 48 ≤ n && n ≤ 57 then some (n - 48)
  else if 97 ≤ n && n ≤ 102 then some (n - 87)
  else if 65 ≤ n && n ≤ 70 then some (n - 55)
  else none

/-- String body parser, after the opening quote: unescape until the closing
quote; unescaped control characters are rejected as JSON.parse does. -/
def parseJStr : Nat → List Char → Option (List Char × List Char)
  | 0, _ => none
  | _, [] => none
  | fuel + 1, c :: cs =>
    if c = '"' then some ([], cs)
    else if c = '\\' then
      match cs with
      | [] => none
      | e :: cs2 =>
        let simple : Option Char :=
          if e = '"' then some '"' else if e = '\\' then some '\\'
          else if e = '/' then some '/' else if e = 'b' then some '\x08'
          else if e = 'f' then some '\x0c' else if e = 'n' then some '\n'
          else if e = 'r' then some '\x0d' else if e = 't' then some '\t'
          else none
        match simple with
        | some d =>
          match parseJStr fuel cs2 with
          | some (body, rest) => some (d :: body, rest)
          | none => none
        | none =>
          if e = 'u' then
            match cs2 with
            | h1 :: h2 :: h3 :: h4 :: cs3 =>
              match hexVal h1, hexVal h2, hexVal h3, hexVal h4 with
              | some a, some b, some c3, some d4 =>
                let n := ((a * 16 + b) * 16 + c3) * 16 + d4
                if 0xd800 ≤ n && n ≤ 0xdfff then none
                else
                  match parseJStr fuel cs3 with
                  | some (body, rest) => some (Char.ofNat n :: body, rest)
                  | none => none
              | _, _, _, _ => none
            | _ => none
          else none
    else if c.toNat < 0x20 then none
    else
      match parseJStr fuel cs with
      | some (body, rest) => some (c :: body, rest)
      | none => none

/-- Digit run as a natural number; fails on an empty run. -/
def parseDigits (cs : List Char) : Option (Nat × Nat × List Char) :=
  let run := takeRun isDigitB cs
  if run.length = 0 then none
  else some (run.foldl (fun acc c => acc * 10 + (c.toNat - '0'.toNat)) 0,
    run.length, cs.drop run.length)

/-- JSON number parser: optional minus, an integer part without leading
zeros, an optional fraction, an optional exponent. -/
def parseJNum (cs : List Char) : Option (Rat × List Char) :=
  let (neg, cs1) := match cs with
    | '-' :: t => (true, t)
    | _ => (false, cs)
  let ipart : Option (Nat × List Char) := match cs1 with
    | '0' :: t => some (0, t)
    | _ =>
      match parseDigits cs1 with
      | some (n, _, rest) => some (n, rest)
      | none => none
  match ipart with
  | none => none
  | some (i, cs2) =>
    let fpart : Option (Nat × Nat × List Char) := match cs2 with
      | '.' :: t =>
        match parseDigits t with
        | some (f, flen, rest) => some (f, flen, rest)
        | none => none
      | _ => some (0, 0, cs2)
    match fpart with
    | none => none
    | some (f, flen, cs3) =>
      let epart : Option (Int × List Char) := match cs3 with
        | 'e' :: t | 'E' :: t =>
          let (eneg, t2) := match t with
            | '-' :: u => (true, u)
            | '+' :: u => (false, u)
            | _ => (false, t)
          match parseDigits t2 with
          | some (e, _, rest) => some (if eneg then -(e : Int) else (e : Int), rest)
          | none => none
        | _ => some (0, cs3)
      match epart with
      | none => none
      | some (e, cs4) =>
        let mant : Int := (i * 10 ^ flen + f : Nat)
        let mant := if neg then -mant else mant
        let base : Rat := (mant : Rat) / ((10 : Rat) ^ flen)
        let q : Rat := if 0 ≤ e then base * (10 : Rat) ^ e.toNat else base / (10 : Rat) ^ (-e).toNat
        some (q, cs4)

mutual

/-- JSON value parser: skips leading whitespace, consumes one value. -/
def parseJVal : Nat → List Char → Option (JVal × List Char)
  | 0, _ => none
  | fuel + 1, cs =>
    match skipJsonWs cs with
    | [] => none
    | c :: t =>
      if c = '"' then
        match parseJStr (fuel + 1) t with
        | some (body, rest) => some (.str ⟨body⟩, rest)
        | none => none
      else if c = '-' || isDigitB c then
        match parseJNum (c :: t) with
        | some (q, rest) => some (.num q, rest)
        | none => none
      else if c = '[' then
        match skipJsonWs t with
        | ']' :: rest => some (.arr [], rest)
        | u => match parseJArr fuel u with
          | some (xs, rest) => some (.arr xs, rest)
          | none => none
      else if c = '\x7b' then
        match skipJsonWs t with
        | '\x7d' :: rest => some (.obj [], rest)
        | u => match parseJObj fuel u with
          | some (fs, rest) => some (.obj fs, rest)
          | none => none
      else if isPrefixB "true".data (c :: t) then some (.bool true, (c :: t).drop 4)
      else if isPrefixB "false".data (c :: t) then some (.bool false, (c :: t).drop 5)
      else if isPrefixB "null".data (c :: t) then some (.null, (c :: t).drop 4)
      else none

/-- Array tail parser: one value, then a comma-separated continuation or the
closing bracket. -/
def parseJArr : Nat → List Char → Option (List JVal × List Char)
  | 0, _ => none
  | fuel + 1, cs =>
    match parseJVal fuel cs with
    | none => none
    | some (v, rest) =>
      match skipJsonWs rest with
      | ',' :: more =>
        match parseJArr fuel more with
        | some (xs, rest2) => some (v :: xs, rest2)
        | none => none
      | ']' :: rest2 => some ([v], rest2)
      | _ => none

/-- Object tail parser: one string key, a colon, a value, then a
comma-separated continuation or the closing brace. -/
def parseJObj : Nat → List Char → Option (List (String × JVal) × List Char)
  | 0, _ => none
  | fuel + 1, cs =>
    match skipJsonWs cs with
    | '"' :: t =>
      match parseJStr (fuel + 1) t with
      | none => none
      | some (key, rest) =>
        match skipJsonWs rest with
        | ':' :: rest2 =>
          match parseJVal fuel rest2 with
          | none => none
          | some (v, rest3) =>
            match skipJsonWs rest3 with
            | ',' :: more =>
              match parseJObj fuel more with
              | some (fs, rest4) => some ((⟨key⟩, v) :: fs, rest4)
              | none => none
            | '\x7d' :: rest4 => some ([(⟨key⟩, v)], rest4)
            | _ => none
        | _ => none
    | _ => none

end

/-- Model of JSON.parse: a complete value with only trailing whitespace. -/
def jsonParse (s : String) : Option JVal :=
  match parseJVal (s.length + 1) s.data with
  | some (v, rest) => if skipJsonWs rest = [] then some v else none
  | none => none

/-- Property read on an object: the last binding wins, modelling the
overwrite semantics of duplicate keys in JSON.parse; a read on any
non-object non-null value yields undefined (none). -/
def jsGetFields : List (String × JVal) → String → Option JVal
  | [], _ => none
  | (k, v) :: rest, key =>
    match jsGetFields rest key with
    | some w => some w
    | none => if k = key then some v else none

def jvalGet (v : JVal) (key : String) : Option JVal :=
  match v with
  | .obj fs => jsGetFields fs key
  | _ => none

/-- JavaScript truthiness of a JSON value. -/
def jsTruthy : JVal → Bool
  | .null => false
  | .bool b => b
  | .num q => q ≠ 0
  | .str s => s ≠ ""
  | .arr _ => true
  | .obj _ => true

/-! ## Strategy A: the strict decode through the forgiving zod schema

Models of the Issue and ReviewShape zod schemas of src/src/review.js
(v1.0.x): every field carries a catch that replaces an ill-typed or missing
value by the field's default, so the only way the whole parse fails is a
non-object at the top or inside the issues array (which the array-level
catch folds to an empty list). -/

/-- A z.string().catch(dflt) field read. -/
def zodStr (v : Option JVal) (dflt : String) : String :=
  match v with
  | some (.str s) => s
  | _ => dflt

def isJObj : JVal → Bool
  | .obj _ => true
  | _ => false

def isJStr : JVal → Bool
  | .str _ => true
  | _ => false

def jStrOf : JVal → Option String
  | .str s => some s
  | _ => none

/-- Model of the Issue zod schema: fails only on a non-object. -/
def zodIssue (v : JVal) : Option Finding :=
  match v with
  | .obj _ => some
      { file := zodStr (jvalGet v "file") "unknown"
        line := match jvalGet v "line" with
          | some (.num q) => if q.den = 1 then some q.num else none
          | _ => none
        severity := match jvalGet v "severity" with
          | some (.str s) => if validSeverities.contains s then s else "info"
          | _ => "info"
        title := zodStr (jvalGet v "title") "Untitled Issue"
        detail := zodStr (jvalGet v "detail") "No details provided"
        suggestion := match jvalGet v "suggestion" with
          | some (.str s) => some s
          | _ => none
        tags := match jvalGet v "tags" with
          | some (.arr xs) =>
            if xs.all isJStr then some (xs.filterMap jStrOf) else none
          | _ => none }
  | _ => none

/-- Model of the ReviewShape zod schema: fails only on a non-object. -/
def zodReview (v : JVal) : Option Review :=
  match v with
  | .obj _ => some
      { summary := zodStr (jvalGet v "summary") "AI review completed"
        overall_risk := match jvalGet v "overall_risk" with
          | some (.str s) => if validRisks.contains s then s else "low"
          | _ => "low"
        issues := match jvalGet v "issues" with
          | some (.arr xs) => if xs.all isJObj then xs.filterMap zodIssue else []
          | some _ => []
          | none => [] }
  | _ => none

/-! ## A small backtracking regex engine

The three issue patterns and the severity-indicator patterns of the v1.0.x
extractIssuesFromText mix lazy and greedy quantifiers with optional groups,
so they are embedded as regex syntax trees run by a backtracking matcher
that realizes the ECMAScript order of alternatives: greedy quantifiers take
the longer continuation first, lazy ones the shorter, an optional group
tries presence before absence, and alternation is tried left to right.
Captures are recorded as index pairs into the subject and resolved to
strings only when a whole match succeeds, exactly as the engine's match
array is.  A star stops iterating when its body consumed nothing (no
pattern below repeats a possibly-empty body).  Fuel bounds star unrolling;
the wrapper passes the subject length plus one, which every pattern below
stays under because each iteration consumes at least one character. -/

inductive RE where
  | cls (p : Char → Bool)
  | seq (a b : RE)
  | alt (a b : RE)
  | optG (a : RE)
  | starG (a : RE)
  | starL (a : RE)
  | grp (i : Nat) (a : RE)
  | wb

/-- Capture store: group index mapped to start and end positions; the most
recent assignment wins. -/
abbrev Caps := List (Nat × Nat × Nat)

def setCap (i s e : Nat) (caps : Caps) : Caps := (i, s, e) :: caps

def getCap (i : Nat) (caps : Caps) : Option (Nat × Nat) :=
  (List.find? (fun x => x.1 = i) caps).map (fun x => x.2)

/-- Character at a position. -/
def charAt (input : List Char) (i : Nat) : Option Char := input.get? i

/-- ECMAScript word character, the class of the word-boundary assertion. -/
def isWordChar (c : Char) : Bool := isAsciiLetter c || isDigitB c || c = '_'

def isWordAt (input : List Char) (i : Nat) : Bool :=
  match charAt input i with
  | some c => isWordChar c
  | none => false

/-- One fuel layer of the backtracking matcher, in continuation style and
structural in the regex tree.  The continuation receives the position and
captures after the node; the first success in the documented exploration
order is returned.  A star iteration that made progress continues through
nextStar, the next lower fuel layer; the bottom layer's nextStar always
fails, which makes an exhausted star contribute zero further iterations. -/
def reRunAux
    (nextStar : RE → List Char → Nat → Caps → (Nat → Caps → Option (Nat × Caps)) →
      Option (Nat × Caps)) :
    RE → List Char → Nat → Caps → (Nat → Caps → Option (Nat × Caps)) →
    Option (Nat × Caps)
  | .cls p, input, pos, caps, k =>
    match charAt input pos with
    | some c => if p c then k (pos + 1) caps else none
    | none => none
  | .seq a b, input, pos, caps, k =>
    reRunAux nextStar a input pos caps
      (fun pos' caps' => reRunAux nextStar b input pos' caps' k)
  | .alt a b, input, pos, caps, k =>
    match reRunAux nextStar a input pos caps k with
    | some r => some r
    | none => reRunAux nextStar b input pos caps k
  | .optG a, input, pos, caps, k =>
    match reRunAux nextStar a input pos caps k with
    | some r => some r
    | none => k pos caps
  | .starG a, input, pos, caps, k =>
    match reRunAux nextStar a input pos caps (fun pos' caps' =>
      if pos < pos' then nextStar (.starG a) input pos' caps' k else none) with
    | some r => some r
    | none => k pos caps
  | .starL a, input, pos, caps, k =>
    match k pos caps with
    | some r => some r
    | none => reRunAux nextStar a input pos caps (fun pos' caps' =>
        if pos < pos' then nextStar (.starL a) input pos' caps' k else none)
  | .grp i a, input, pos, caps, k =>
    reRunAux nextStar a input pos caps (fun pos' caps' => k pos' (setCap i pos pos' caps'))
  | .wb, input, pos, caps, k =>
    if isWordAt input (pos - 1) != isWordAt input pos || (pos = 0 && isWordAt input 0) then
      k pos caps
    else none

/-- The fuel tower of the matcher: each star iteration descends one layer.
Every pattern run in this development consumes at least one character per
iteration, so the wrapper's fuel of the subject length plus one is never
exhausted on any exploration path. -/
def reRun : Nat → RE → List Char → Nat → Caps → (Nat → Caps → Option (Nat × Caps)) →
    Option (Nat × Caps)
  | 0 => reRunAux (fun _ _ _ _ _ => none)
  | fuel + 1 => reRunAux (reRun fuel)

/-- Anchored match attempt at a position. -/
def reMatchAt (re : RE) (input : List Char) (pos : Nat) : Option (Nat × Caps) :=
  reRun (input.length + 1) re input pos [] (fun p c => some (p, c))

/-- Leftmost match at or after a position, as exec performs it. -/
def reFindFrom (re : RE) (input : List Char) : Nat → Nat → Option (Nat × Nat × Caps)
  | 0, _ => none
  | fuel + 1, pos =>
    match reMatchAt re input pos with
    | some (e, caps) => some (pos, e, caps)
    | none => if pos < input.length then reFindFrom re input fuel (pos + 1) else none

def sliceStr (input : List Char) (s e : Nat) : String := ⟨(input.drop s).take (e - s)⟩

/-- The match array of an exec result: the full match then each numbered
group, unset groups as none. -/
def matchArr (input : List Char) (ng idx e : Nat) (caps : Caps) : List (Option String) :=
  some (sliceStr input idx e) ::
    (List.range ng).map (fun i => (getCap (i + 1) caps).map (fun p => sliceStr input p.1 p.2))

/-- All match arrays of a global exec loop.  lastIndex advances to each match
end; the patterns run here never produce an empty match, so the loop always
progresses (fuel bounds it regardless). -/
def execAll (re : RE) (ng : Nat) (input : List Char) : Nat → Nat → List (List (Option String))
  | 0, _ => []
  | fuel + 1, pos =>
    match reFindFrom re input (input.length + 1 - pos) pos with
    | none => []
    | some (idx, e, caps) => matchArr input ng idx e caps :: execAll re ng input fuel e

def execMatches (re : RE) (ng : Nat) (input : List Char) : List (List (Option String)) :=
  execAll re ng input (input.length + 1) 0

/-- Count of global matches, the length of a match call's result. -/
def reCount (re : RE) (input : List Char) : Nat := (execMatches re 0 input).length

/-! ### The concrete patterns of the v1.0.x extractor -/

def reChar (c : Char) : RE := .cls (fun x => x = c)

def reStrCI (s : String) : RE :=
  match s.data with
  | [] => .optG (.cls fun _ => false)
  | c :: cs => cs.foldl (fun acc d => .seq acc (.cls (ciEqChar d))) (.cls (ciEqChar c))

def reAltList : RE → List RE → RE
  | a, [] => a
  | a, b :: rest => .alt a (reAltList b rest)

/-- Lazy plus: one occurrence then a lazy star. -/
def rePlusL (a : RE) : RE := .seq a (.starL a)

/-- Greedy plus: one occurrence then a greedy star. -/
def rePlusG (a : RE) : RE := .seq a (.starG a)

def reSeqList : RE → List RE → RE
  | a, [] => a
  | a, b :: rest => .seq a (reSeqList b rest)

/-- Hyphen or en dash, the bracket class of the issue patterns. -/
def isDashClass (c : Char) : Bool := c = '-' || c = '–'

/-- The severity alternation of the issue patterns, in source order. -/
def sevAlt3 : RE := reAltList (reStrCI "HIGH") [reStrCI "CRITICAL", reStrCI "SECURITY"]

/-- Dot without the s flag: any character except the line terminators. -/
def isDotClass (c : Char) : Bool :=
  c ≠ '\n' && c ≠ '\x0d' && c ≠ ' ' && c ≠ ' '

/-- Issue pattern one of the v1.0.x extractor: an optionally bracketed
severity, optional whitespace, a lazy dash-free title, then an optional
dash-separated file-and-line tail, all groups after the severity optional. -/
def p1 : RE :=
  reSeqList (.optG (reChar '['))
    [.grp 1 sevAlt3, .optG (reChar ']'), .starG (.cls isJsWs),
     .grp 2 (rePlusL (.cls (fun c => c ≠ '-' && c ≠ '\n'))),
     .optG (reSeqList (.starG (.cls isJsWs))
       [.cls isDashClass, .starG (.cls isJsWs),
        .grp 3 (rePlusL (.cls (fun c => c ≠ ':' && c ≠ '\n'))),
        .optG (reChar ':'), .optG (.grp 4 (rePlusG (.cls isDigitB)))])]

/-- Issue pattern two: a lazy dash-free head, a dash, a lazy colon-free
segment with optional colon and digits, another dash, then the severity. -/
def p2 : RE :=
  reSeqList (.grp 1 (rePlusL (.cls (fun c => c ≠ '-' && c ≠ '\n'))))
    [.starG (.cls isJsWs), .cls isDashClass, .starG (.cls isJsWs),
     .grp 2 (rePlusL (.cls (fun c => c ≠ ':' && c ≠ '\n'))),
     .optG (reChar ':'), .optG (.grp 3 (rePlusG (.cls isDigitB))),
     .starG (.cls isJsWs), .cls isDashClass, .starG (.cls isJsWs),
     .optG (reChar '['), .grp 4 sevAlt3, .optG (reChar ']')]

/-- Issue pattern three: a lazy colon-free head, a colon, a lazy dotted
middle, then the severity. -/
def p3 : RE :=
  reSeqList (.grp 1 (rePlusL (.cls (fun c => c ≠ ':' && c ≠ '\n'))))
    [reChar ':', .grp 2 (rePlusL (.cls isDotClass)),
     .optG (reChar '['), .grp 3 sevAlt3, .optG (reChar ']')]

/-- The high-risk indicator pattern of the v1.0.x extractor. -/
def pHigh : RE :=
  reSeqList (.optG (reChar '[')) [.wb,
    .grp 1 (reAltList (reStrCI "HIGH") [reStrCI "HIGH RISK", reStrCI "CRITICAL",
      reStrCI "CRITICAL RISK", reStrCI "SECURITY", reStrCI "SECURITY RISK"]),
    .wb, .optG (reChar ']')]

/-- The medium-risk indicator pattern. -/
def pMedium : RE :=
  reSeqList (.optG (reChar '[')) [.wb,
    .grp 1 (reAltList (reStrCI "MEDIUM") [reStrCI "MEDIUM RISK"]),
    .wb, .optG (reChar ']')]

/-- The low-risk indicator pattern (computed by the source and never used
afterwards; modelled for completeness). -/
def pLow : RE :=
  reSeqList (.optG (reChar '[')) [.wb,
    .grp 1 (reAltList (reStrCI "LOW") [reStrCI "LOW RISK", reStrCI "INFO"]),
    .wb, .optG (reChar ']')]

/-! ## The v1.0.x pattern-based extractor and robust-parsing cascade -/

/-- The severity word list of the pattern extractor's per-match search. -/
def sevListUpper : List String := ["HIGH", "CRITICAL", "SECURITY", "MEDIUM", "LOW"]

/-- First defined element of a match array satisfying the predicate, as
Array.prototype.find walks it (the full match is element zero). -/
def findSome (arr : List (Option String)) (p : String → Bool) : Option String :=
  match arr with
  | [] => none
  | some m :: rest => if p m then some m else findSome rest p
  | none :: rest => findSome rest p

/-- Nonempty all-digit test, the anchored digits regex of the extractor. -/
def allDigitsB (s : String) : Bool := !s.data.isEmpty && s.data.all isDigitB

/-- One application of the anchored leading-dash replacement: strip optional
whitespace, a dash, and optional whitespace; when no dash follows the
leading whitespace the string is unchanged. -/
def stripLeadDash (s : String) : String :=
  match dropRun isJsWs s.data with
  | c :: rest => if isDashClass c then ⟨dropRun isJsWs rest⟩ else s
  | [] => s

/-- Model of String.prototype.trim restricted to ASCII whitespace. -/
def jsTrim (s : String) : String :=
  ⟨(dropRun isJsWs (dropRun isJsWs s.data).reverse).reverse⟩

/-- parseInt on a nonempty decimal digit string. -/
def parseIntDigits (s : String) : Int :=
  (s.data.foldl (fun a c => a * 10 + (c.toNat - '0'.toNat)) 0 : Nat)

/-- The line slot of an issue key built from a stored finding: the template
stringifies the number, and both null and the number zero are falsy, so
both render the no-line marker. -/
def storedLineKey : Option Int → String
  | some n => if n = 0 then "no-line" else toString n
  | none => "no-line"

/-- The dedup key of a stored finding, rebuilt from its cleaned fields. -/
def storedKey (f : Finding) : String :=
  f.file ++ ":" ++ storedLineKey f.line ++ ":" ++ f.severity ++ ":" ++ f.title

/-- One iteration of the extractor's match loop: derive severity, title,
file and line from the match array, skip when the raw key equals a stored
finding's key, otherwise append the cleaned finding.  The raw key uses the
uncleaned capture strings (a captured line string is always truthy, even
"0"), while the stored key uses the cleaned fields, and the pushed fields
apply the dash-strip, trim and parseInt cleanups. -/
def v10Step (issues : List Finding) (arr : List (Option String)) : List Finding :=
  let severity := match findSome arr (fun m => sevListUpper.contains (jsToUpper m)) with
    | some m => jsToLower m
    | none => "medium"
  let title := (findSome arr (fun m => m.length > 3 && !allDigitsB m)).getD "Issue found"
  let file := (findSome arr (fun m => m ≠ "" && containsB m.data ['/'])).getD "unknown"
  let lineS := findSome arr (fun m => m ≠ "" && allDigitsB m)
  let rawKey := file ++ ":" ++ (match lineS with | some s => s | none => "no-line") ++
    ":" ++ severity ++ ":" ++ title
  if issues.any (fun i => storedKey i = rawKey) then issues
  else issues ++ [{ file := stripLeadDash file
                    line := lineS.map parseIntDigits
                    severity := severity
                    title := jsTrim (stripLeadDash title)
                    detail := "Issue detected in code review requiring attention."
                    suggestion := none
                    tags := some ["pattern-extracted"] }]

/-- Model of extractIssuesFromText from src/src/review.js (v1.0.x): count the
severity indicators, run the three issue patterns in order over the text
collecting deduplicated findings, fall back to one generic finding when the
indicators fired but no pattern did, and derive the summary and overall
risk.  The low-indicator count is computed and never read, as in the
source. -/
def extractIssuesFromTextV10 (text : String) : Review :=
  let input := text.data
  let highCnt := reCount pHigh input
  let medCnt := reCount pMedium input
  let _lowCnt := reCount pLow input
  let risk := if highCnt > 0 then "high" else if medCnt > 0 then "medium" else "low"
  let arrays := execMatches p1 4 input ++ execMatches p2 4 input ++ execMatches p3 3 input
  let issues0 := arrays.foldl v10Step []
  let issues := if issues0.isEmpty && (highCnt > 0 || medCnt > 0) then
      [{ file := "unknown"
         line := none
         severity := if highCnt > 0 then "high" else "medium"
         title := "Issues detected in code review"
         detail := "The AI review identified potential issues but specific details could not be extracted."
         suggestion := some "Please review the raw AI response in artifacts for detailed findings."
         tags := some ["pattern-extracted"] }]
    else issues0
  { summary := if issues.length > 0 then
      "AI review identified " ++ toString issues.length ++ " potential issue" ++
        (if issues.length > 1 then "s" else "") ++ " requiring attention."
    else "AI review completed - no critical issues detected in parseable format."
    overall_risk := risk
    issues := issues }

/-! ## Strategy B: embedded-JSON extraction -/

/-- Index of the first occurrence of a character. -/
def firstIdx (c : Char) : List Char → Option Nat
  | [] => none
  | x :: t => if x = c then some 0 else (firstIdx c t).map (· + 1)

/-- Index of the last occurrence of a character. -/
def lastIdx (c : Char) (cs : List Char) : Option Nat :=
  (firstIdx c cs.reverse).map (fun i => cs.length - 1 - i)

/-- The span the brace regex of attemptRobustParsing selects: the greedy
any-character middle runs from the first opening brace to the last closing
brace of the whole text (the span must hold at least the two braces). -/
def jsonSpan (s : String) : Option String :=
  match firstIdx '\x7b' s.data, lastIdx '\x7d' s.data with
  | some p, some q => if p < q then some ⟨(s.data.drop p).take (q + 1 - p)⟩ else none
  | _, _ => none

/-- A JavaScript value-or-default read: the string when it is truthy,
otherwise the default.  A truthy non-string value would be carried through
unchanged in JavaScript; no verified claim observes such a field, and the
model folds it to the default. -/
def jsOrStr (v : Option JVal) (dflt : String) : String :=
  match v with
  | some (.str s) => if s = "" then dflt else s
  | _ => dflt

/-- The per-issue normalisation of Strategy B.  The line field keeps any
number and null otherwise; a non-integral number would be kept in
JavaScript and is folded to null here (no verified claim observes it).
Tags keep an array and null otherwise; non-string tag entries are dropped
by the model (none observed by a claim). -/
def buildBIssue (x : JVal) : Finding :=
  { file := jsOrStr (jvalGet x "file") "unknown"
    line := match jvalGet x "line" with
      | some (.num q) => if q.den = 1 then some q.num else none
      | _ => none
    severity := match jvalGet x "severity" with
      | some (.str s) => if validSeverities.contains s then s else "info"
      | _ => "info"
    title := jsOrStr (jvalGet x "title") "Untitled Issue"
    detail := jsOrStr (jvalGet x "detail") "No details provided"
    suggestion := match jvalGet x "suggestion" with
      | some (.str s) => if s = "" then none else some s
      | _ => none
    tags := match jvalGet x "tags" with
      | some (.arr xs) => some (xs.filterMap jStrOf)
      | _ => none }

/-- The Review Strategy B builds from the parsed embedded JSON.  A null
entry in the issues array makes the property reads of the map callback
throw in JavaScript; the surrounding try catches the throw and the cascade
falls through, modelled by none. -/
def buildB (v : JVal) : Option Review :=
  let issuesOpt : Option (List Finding) := match jvalGet v "issues" with
    | some (.arr xs) =>
      if xs.any (fun e => match e with | .null => true | _ => false) then none
      else some (xs.map buildBIssue)
    | _ => some []
  match issuesOpt with
  | none => none
  | some iss => some
      { summary := jsOrStr (jvalGet v "summary") "AI review completed with parsing issues"
        overall_risk := match jvalGet v "overall_risk" with
          | some (.str s) => if validRisks.contains s then s else "low"
          | _ => "low"
        issues := iss }

/-! ## Strategy D and the full cascade -/

/-- The generic loud-failure Review of the cascade's last resort. -/
def parsingFailedReview : Review :=
  { summary := "AI review completed but response format was unexpected. Manual review recommended."
    overall_risk := "medium"
    issues := [{ file := "ai-review-script"
                 line := none
                 severity := "medium"
                 title := "Response parsing failed"
                 detail := "Could not parse AI response using multiple methods. Check artifacts for raw output."
                 suggestion := some "Report this issue for debugging."
                 tags := some ["parsing-error"] }] }

/-- Strategy A, the strict decode: JSON.parse of the entire text followed by
the zod validation; none collects every way the try block can throw. -/
def strategyA (text : String) : Option Review :=
  (jsonParse text).bind zodReview

/-- Strategy B, the embedded-JSON extraction of attemptRobustParsing: the
brace-span selection, JSON.parse of the span, and the normalising map; none
collects a missing span, a parse failure, and the throw on a null issues
entry. -/
def strategyB (text : String) : Option Review :=
  (jsonSpan text).bind fun span => (jsonParse span).bind buildB

/-- Model of attemptRobustParsing from src/src/review.js: try the brace-span
JSON extraction, then the pattern extractor (accepted when it found issues
or the text has positive phrasing), then the generic response. -/
def attemptRobustParsing (text : String) : Review :=
  match strategyB text with
  | some r => r
  | none =>
    let lower := jsToLower text
    let pd := extractIssuesFromTextV10 text
    if pd.issues.length > 0 || containsB lower.data "looks good".data ||
        containsB lower.data "no issues".data then pd
    else parsingFailedReview

/-- The whole v1.0.x response interpretation: Strategy A with any failure
falling back to attemptRobustParsing.  The model is total: the interpreter
never throws. -/
def interpretResponse (text : String) : Review :=
  match strategyA text with
  | some r => r
  | none => attemptRobustParsing text

/-! ## The v1.1.x marker-delimited extractor

Hand-compiled model of extractIssuesFromText from src/unnamed/part_001.  The
issue pattern is

  star-0-2 [ (SECURITY|CRITICAL|HIGH|MEDIUM|LOW|INFO) ] star-0-2 ws-star
  lazy-title optional( ws-star dash ws-star file optional(colon digits) )
  (newline or end)

with the file part an explicit bounded alternation of non-delimiter runs
joined by single slashes followed by an optional short extension.  Each
helper below names the piece it compiles and documents where the regex
backtracking collapses to a deterministic step. -/

/-- Case-insensitive prefix match returning the matched source characters. -/
def ciPrefixTake : List Char → List Char → Option (List Char × List Char)
  | [], cs => some ([], cs)
  | _ :: _, [] => none
  | p :: ps, c :: cs =>
    if ciEqChar p c then (ciPrefixTake ps cs).map (fun r => (c :: r.1, r.2)) else none

/-- The severity alternation in source order; no token is a prefix of
another, so at most one alternative can match at a position. -/
def sevAltTake (cs : List Char) : Option (List Char × List Char) :=
  match ciPrefixTake "SECURITY".data cs with
  | some r => some r
  | none =>
  match ciPrefixTake "CRITICAL".data cs with
  | some r => some r
  | none =>
  match ciPrefixTake "HIGH".data cs with
  | some r => some r
  | none =>
  match ciPrefixTake "MEDIUM".data cs with
  | some r => some r
  | none =>
  match ciPrefixTake "LOW".data cs with
  | some r => some r
  | none => ciPrefixTake "INFO".data cs

/-- The newline-or-end tail of the marker pattern, returning the rest after
an accepted newline. -/
def lineEndTake : List Char → Option (List Char)
  | '\n' :: rest => some rest
  | [] => some []
  | _ => none

/-- The file segment class: not whitespace, not a colon, not a slash (the
newline exclusion is subsumed by whitespace). -/
def isFileChar (c : Char) : Bool := !isJsWs c && c ≠ ':' && c ≠ '/'

/-- Extension character class, letters or digits (the i flag widens the
lowercase range of the source class). -/
def isExtChar (c : Char) : Bool := isAsciiLetter c || isDigitB c

/-- Descending length search for a greedy quantifier requiring at least one
character: try the bound first, then shorter, failing below one. -/
def tryLenDesc1 {α : Type} (f : Nat → Option α) : Nat → Option α
  | 0 => none
  | n + 1 =>
    match f (n + 1) with
    | some r => some r
    | none => tryLenDesc1 f n

/-- The optional colon-digits tail and the newline-or-end closer, given the
accumulated file capture.  The greedy digit run admits only its maximal
extent: a shorter cut is followed by a digit, which is neither a newline
nor the end. -/
def lineCont (acc : List Char) (cs : List Char) :
    Option (List Char × Option (List Char) × List Char) :=
  let viaDigits : Option (List Char × Option (List Char) × List Char) :=
    match cs with
    | ':' :: rest =>
      let run := takeRun isDigitB rest
      if run.length ≥ 1 then
        match lineEndTake (rest.drop run.length) with
        | some r => some (acc, some run, r)
        | none => none
      else none
    | _ => none
  match viaDigits with
  | some r => some r
  | none =>
    match lineEndTake cs with
    | some r => some (acc, none, r)
    | none => none

/-- The optional dotted extension (greedy, present before absent, longer
before shorter) followed by the line tail. -/
def extCont (acc : List Char) (cs : List Char) :
    Option (List Char × Option (List Char) × List Char) :=
  let viaExt : Option (List Char × Option (List Char) × List Char) :=
    match cs with
    | '.' :: rest =>
      let run := takeRun isExtChar rest
      tryLenDesc1 (fun l => lineCont (acc ++ '.' :: run.take l) (rest.drop l))
        (min 6 run.length)
    | _ => none
  match viaExt with
  | some r => some r
  | none => extCont2 acc cs
where
  /-- Absent-extension branch. -/
  extCont2 (acc : List Char) (cs : List Char) :
      Option (List Char × Option (List Char) × List Char) := lineCont acc cs

/-- The greedy star of slash-joined segments: more segments before fewer,
longer segment runs before shorter, then the extension and line tails.
Fuel bounds the iteration; each segment consumes at least two characters. -/
def segsCont : Nat → List Char → List Char →
    Option (List Char × Option (List Char) × List Char)
  | 0, acc, cs => extCont acc cs
  | fuel + 1, acc, cs =>
    let viaSeg : Option (List Char × Option (List Char) × List Char) :=
      match cs with
      | '/' :: rest =>
        let run := takeRun isFileChar rest
        tryLenDesc1 (fun l => segsCont fuel (acc ++ '/' :: run.take l) (rest.drop l))
          run.length
      | _ => none
    match viaSeg with
    | some r => some r
    | none => extCont acc cs

/-- The whole optional file group after the dash: first segment lengths
descending, then the segment star. -/
def fileMatch (cs : List Char) : Option (List Char × Option (List Char) × List Char) :=
  let run := takeRun isFileChar cs
  tryLenDesc1 (fun l => segsCont cs.length (run.take l) (cs.drop l)) run.length

/-- The optional dash-file group: whitespace, a dash, whitespace, then the
file part.  Both whitespace stars are deterministic: the dash and the file
class are not whitespace, so only the maximal runs are viable. -/
def groupFile (cs : List Char) : Option (List Char × Option (List Char) × List Char) :=
  match dropRun isJsWs cs with
  | '-' :: b => fileMatch (dropRun isJsWs b)
  | _ => none

/-- Continuation after the title: the optional file group first (greedy
option), else the bare newline-or-end. -/
def contAfterTitle (cs : List Char) :
    Option (Option (List Char) × Option (List Char) × List Char) :=
  match groupFile cs with
  | some (f, l, rest) => some (some f, l, rest)
  | none =>
    match lineEndTake cs with
    | some rest => some (none, none, rest)
    | none => none

/-- The lazy title: grow one non-newline character at a time, attempting the
continuation after each growth step. -/
def titleLoop (acc : List Char) : List Char →
    Option (List Char × Option (List Char) × Option (List Char) × List Char)
  | [] => none
  | c :: rest =>
    if c = '\n' then none
    else
      match contAfterTitle rest with
      | some (f, l, r) => some (acc ++ [c], f, l, r)
      | none => titleLoop (acc ++ [c]) rest

/-- Whitespace backtracking after the closing bracket's stars: the greedy
whitespace star tries its maximal run first, then shorter runs. -/
def tryWsDesc (cs : List Char) : Nat →
    Option (List Char × Option (List Char) × Option (List Char) × List Char)
  | 0 => titleLoop [] cs
  | j + 1 =>
    match titleLoop [] (cs.drop (j + 1)) with
    | some r => some r
    | none => tryWsDesc cs j

/-- Star backtracking after the closing bracket: at most two stars, longer
first; each choice then explores the whitespace run. -/
def tryStarsDesc (cs : List Char) : Nat →
    Option (List Char × Option (List Char) × Option (List Char) × List Char)
  | 0 => tryWsDesc cs (runLen isJsWs cs)
  | k + 1 =>
    let r :=
      if runLen (fun c => c = '*') cs ≥ k + 1 then
        let cs2 := cs.drop (k + 1)
        tryWsDesc cs2 (runLen isJsWs cs2)
      else none
    match r with
    | some r => some r
    | none => tryStarsDesc cs k

/-- A successful marker match: the severity, title, optional file and line
captures as the source characters they matched, and the full match
length. -/
structure MarkerM where
  sev : List Char
  title : List Char
  file : Option (List Char)
  line : Option (List Char)
  len : Nat

/-- Match attempt of the whole marker pattern at a position.  The leading
star quantifier is deterministic: only consuming every available star (at
most two) can be followed by the mandatory opening bracket. -/
def matchMarkerAt (cs : List Char) : Option MarkerM :=
  let k1 := min 2 (runLen (fun c => c = '*') cs)
  match cs.drop k1 with
  | '[' :: cs2 =>
    match sevAltTake cs2 with
    | some (sev, ']' :: cs4) =>
      match tryStarsDesc cs4 2 with
      | some (title, f, l, rest) =>
        some { sev := sev, title := title, file := f, line := l,
               len := cs.length - rest.length }
      | none => none
    | _ => none
  | _ => none

/-- Earliest marker match at or after a position. -/
def findMarkerFrom (input : List Char) : Nat → Nat → Option (Nat × MarkerM)
  | 0, _ => none
  | fuel + 1, pos =>
    match matchMarkerAt (input.drop pos) with
    | some m => some (pos, m)
    | none => if pos < input.length then findMarkerFrom input fuel (pos + 1) else none

/-- Does the bare bracketed-severity pattern match at this position?  This is
the search regex used for the summary boundary and the issue-body end. -/
def bracketSevAt : List Char → Bool
  | '[' :: r =>
    match sevAltTake r with
    | some (_, ']' :: _) => true
    | _ => false
  | _ => false

/-- Index of the first bracketed severity (String.prototype.search). -/
def sevBracketIdx : List Char → Option Nat
  | [] => none
  | c :: t => if bracketSevAt (c :: t) then some 0 else (sevBracketIdx t).map (· + 1)

/-- Double-star removal, the global replace of the title cleanup: pairs are
consumed left to right, a lone star survives. -/
def rmDoubleStar : List Char → List Char
  | '*' :: '*' :: rest => rmDoubleStar rest
  | c :: rest => c :: rmDoubleStar rest
  | [] => []

/-- Lazy dotted capture of the suggestion pattern under the s flag: take at
least one character (any character) and stop at the earliest position where
the lookahead blank-line, newline-bracket or end alternative holds. -/
def lazyDotTake : List Char → Option (List Char)
  | [] => none
  | c :: rest =>
    if rest = [] || isPrefixB "\n\n".data rest || isPrefixB "\n[".data rest then some [c]
    else
      match lazyDotTake rest with
      | some more => some (c :: more)
      | none => none

/-- Whitespace backtracking of the suggestion pattern: the greedy star tries
the maximal run, then shorter runs. -/
def sugWsDesc (rest : List Char) : Nat → Option (List Char)
  | 0 => lazyDotTake rest
  | j + 1 =>
    match lazyDotTake (rest.drop (j + 1)) with
    | some cap => some cap
    | none => sugWsDesc rest j

/-- Match attempt of the suggestion pattern at a position: the
case-insensitive label, greedy whitespace, then the lazy capture. -/
def sugMatchAt (cs : List Char) : Option (List Char) :=
  if isPrefixCIB "SUGGESTION:".data cs then
    let rest := cs.drop 11
    sugWsDesc rest (runLen isJsWs rest)
  else none

/-- First suggestion match in the body with its index. -/
def sugFind : List Char → Nat → Option (Nat × List Char)
  | [], _ => none
  | c :: t, idx =>
    match sugMatchAt (c :: t) with
    | some cap => some (idx, cap)
    | none => sugFind t (idx + 1)

/-- Default detail text of the v1.1.x extractor. -/
def v11DefaultDetail : String := "Issue detected in code review requiring attention."

/-- Detail and suggestion of one issue: the body runs from the match end to
the next bracketed severity; a next marker immediately at the match end
(index zero) fails the positive-index guard and the body then runs to the
end of the whole text, as in the source. -/
def v11Body (input : List Char) (issueStart : Nat) : String × Option String :=
  let issueEnd := match sevBracketIdx (input.drop issueStart) with
    | some k => if k > 0 then issueStart + k else input.length
    | none => input.length
  let body := jsTrim (sliceStr input issueStart issueEnd)
  match sugFind body.data 0 with
  | some (i, cap) =>
    let d := jsTrim ⟨body.data.take i⟩
    (if d = "" then v11DefaultDetail else d, some (jsTrim ⟨cap⟩))
  | none => (if body = "" then v11DefaultDetail else body, none)

/-- The finding built from one marker match and its body. -/
def v11Finding (input : List Char) (pos : Nat) (m : MarkerM) : Finding :=
  let bd := v11Body input (pos + m.len)
  { file := match m.file with
      | some f => ⟨f⟩
      | none => "unknown"
    line := m.line.map (fun d => parseIntDigits ⟨d⟩)
    severity := jsToLower ⟨m.sev⟩
    title := jsTrim ⟨(rmDoubleStar (jsTrim ⟨m.title⟩).data).filter (fun c => c ≠ '_')⟩
    detail := bd.1
    suggestion := bd.2
    tags := none }

/-- The global exec loop over the marker pattern: successive matches from
the last match end.  The pattern never matches empty text, so the walk
progresses; fuel bounds it regardless. -/
def v11Loop (input : List Char) : Nat → Nat → List Finding
  | 0, _ => []
  | fuel + 1, pos =>
    match findMarkerFrom input (input.length + 1 - pos) pos with
    | none => []
    | some (p, m) => v11Finding input p m :: v11Loop input fuel (p + m.len)

/-- The OVERALL RISK token: the label, mandatory whitespace, the RISK label
and colon, optional whitespace, then the level alternation (source order;
no alternative is a prefix of another).  Both whitespace quantifiers are
deterministic because the following literal starts with a non-whitespace
character.  Returns the level capture and the total length through it. -/
def riskCore (cs : List Char) : Option (List Char × Nat) :=
  if isPrefixCIB "OVERALL".data cs then
    let r := cs.drop 7
    let w := runLen isJsWs r
    if w ≥ 1 then
      let r2 := r.drop w
      if isPrefixCIB "RISK:".data r2 then
        let r3 := r2.drop 5
        let w2 := runLen isJsWs r3
        let r4 := r3.drop w2
        let alt : Option (List Char) :=
          match ciPrefixTake "LOW".data r4 with
          | some q => some q.1
          | none =>
          match ciPrefixTake "MEDIUM".data r4 with
          | some q => some q.1
          | none =>
          match ciPrefixTake "HIGH".data r4 with
          | some q => some q.1
          | none => (ciPrefixTake "CRITICAL".data r4).map (fun q => q.1)
        alt.map (fun lvl => (lvl, 7 + w + 5 + w2 + lvl.length))
      else none
    else none
  else none

/-- First OVERALL RISK token of the text (the non-global riskMatch). -/
def riskFind : List Char → Option (List Char)
  | [] => none
  | c :: t =>
    match riskCore (c :: t) with
    | some (lvl, _) => some lvl
    | none => riskFind t

/-- The global summary cleanup replace: every OVERALL RISK token together
with its trailing whitespace run is removed. -/
def rmRiskTokens : Nat → List Char → List Char
  | 0, cs => cs
  | _, [] => []
  | fuel + 1, c :: cs =>
    match riskCore (c :: cs) with
    | some (_, n) =>
      let n2 := n + runLen isJsWs ((c :: cs).drop n)
      rmRiskTokens fuel ((c :: cs).drop n2)
    | none => c :: rmRiskTokens fuel cs

/-- Model of extractIssuesFromText from src/unnamed/part_001 (v1.1.x): the
explicit risk token seeds the overall risk, the text before the first
bracketed severity (cleared of risk tokens) becomes the summary, the marker
loop collects the findings, and a missing risk token is derived from the
finding severities (critical or security, then high, then medium, then the
low default). -/
def extractIssuesFromTextV11 (text : String) : Review :=
  let input := text.data
  let riskTok := riskFind input
  let issues := v11Loop input (input.length + 1) 0
  let summary0 : String := match sevBracketIdx input with
    | some k => if k > 0 then jsTrim ⟨input.take k⟩ else jsTrim text
    | none => jsTrim text
  let summary1 := jsTrim ⟨rmRiskTokens (summary0.length + 1) summary0.data⟩
  { summary := if summary1 = "" then "AI review completed" else summary1
    overall_risk := match riskTok with
      | some lvl => jsToLower ⟨lvl⟩
      | none =>
        if issues.length > 0 then
          if issues.any (fun i => i.severity = "critical" || i.severity = "security") then
            "critical"
          else if issues.any (fun i => i.severity = "high") then "high"
          else if issues.any (fun i => i.severity = "medium") then "medium"
          else "low"
        else "low"
    issues := issues }

/-! ## Specification-side definitions

Definitions transcribed from the specification's wording rather than from
the source, used to compare the two where a claim asserts they coincide,
and to state properties the source should satisfy. -/

/-- Modelled from the spec: the risk-derivation rule of section 4.3 — any
critical or security finding makes the derived risk critical, else any high
finding makes it high, else any medium finding makes it medium, else it is
low. -/
def deriveRiskSpec (issues : List Finding) : String :=
  if issues.any (fun i => i.severity = "critical" || i.severity = "security") then "critical"
  else if issues.any (fun i => i.severity = "high") then "high"
  else if issues.any (fun i => i.severity = "medium") then "medium"
  else "low"

/-- Brace-depth scan from an opening brace: the span up to the brace that
closes it. -/
def balScan (depth : Nat) (acc : List Char) : List Char → Option (List Char)
  | [] => none
  | c :: rest =>
    if c = '\x7b' then balScan (depth + 1) (acc ++ [c]) rest
    else if c = '\x7d' then
      if depth = 1 then some (acc ++ [c]) else balScan (depth - 1) (acc ++ [c]) rest
    else balScan depth (acc ++ [c]) rest

/-- Suffix starting at the first opening brace. -/
def dropToBrace : List Char → Option (List Char)
  | [] => none
  | c :: t => if c = '\x7b' then some (c :: t) else dropToBrace t

/-- Modelled from the spec: the first balanced top-level brace span of the
text (section 4.4, Strategy B), by naive brace counting from the first
opening brace. -/
def firstBalancedSpan (s : String) : Option String :=
  (dropToBrace s.data).bind fun cs => (balScan 0 [] cs).map (fun l => (⟨l⟩ : String))

/-- Modelled from the spec: one finding block of a renderer that escapes
every free-text field it embeds, the file path included (section 4.6). -/
def findingLineEscAll (i : Nat) (iss : Finding) : String :=
  let esT := escapeMarkdown iss.title
  let esD := escapeMarkdown iss.detail
  let esS := match iss.suggestion with
    | some s => if s = "" then "" else escapeMarkdown s
    | none => ""
  let lineStr := match iss.line with
    | some n => if n = 0 then "" else ":" ++ toString n
    | none => ""
  "- **" ++ toString (i + 1) ++ ". [" ++ jsToUpper iss.severity ++ "] " ++ esT ++
    "** — `" ++ escapeMarkdown iss.file ++ lineStr ++ "`\n" ++ "  " ++ esD ++
    (if esS = "" then "" else "\n  **Suggestion:** " ++ esS)

/-- Modelled from the spec: the renderer with every free-text field escaped,
differing from asMarkdown only in escaping the file path. -/
def asMarkdownEscAll (r : Review) : String :=
  let base := ["### 🤖 AI Code Review (" ++ jsToUpper r.overall_risk ++ ")", "",
    escapeMarkdown r.summary, ""]
  let rest := if r.issues.length = 0 then ["**No issues found.** ✅"]
    else ("**Findings (" ++ toString r.issues.length ++ "):**") ::
      (r.issues.enum.map fun p => findingLineEscAll p.1 p.2)
  joinNl (base ++ rest)

/-- Scanner state for the escape check: the flag records that the previous
character was an unconsumed backslash. -/
def noUnescapedMdSt (esc : Bool) : List Char → Bool
  | [] => !esc
  | c :: rest =>
    if esc then noUnescapedMdSt false rest
    else if c = '\\' then noUnescapedMdSt true rest
    else !isMdSpecial c && noUnescapedMdSt false rest

/-- No markdown-structural character outside a backslash escape: the scanner
skips the character after each backslash and requires every other character
to be outside the special class (a trailing lone backslash fails). -/
def noUnescapedMd (l : List Char) : Bool := noUnescapedMdSt false l

/-- The closed-set invariant of a Review: the overall risk and every
finding's severity lie in their enumerations. -/
def ReviewValid (r : Review) : Prop :=
  validRisks.contains r.overall_risk = true ∧
    ∀ i ∈ r.issues, validSeverities.contains i.severity = true

/-- Does the issues field hold an array with a null entry (the input on
which Strategy B's normalising map throws)? -/
def issuesHasNull (v : JVal) : Bool :=
  match jvalGet v "issues" with
  | some (.arr xs) => xs.any (fun e => match e with | .null => true | _ => false)
  | _ => false

/-- Length of the issues array of the embedded JSON, zero when issues is
absent or not an array. -/
def jsIssuesLen (v : JVal) : Nat :=
  match jvalGet v "issues" with
  | some (.arr xs) => xs.length
  | _ => 0

/-! ### The well-formed marker family for the Strategy C claim

A canonical well-formed marker line in the documented response format,
rendered as bracketed uppercase severity, a space, the title, a spaced
dash, the slash-joined file path, a colon, the decimal line number and a
newline.  The well-formedness constraints keep every free-text part inside
the character classes the pattern delimits fields by. -/

inductive SevTok where
  | security | critical | high | medium | low | info
  deriving Repr, DecidableEq

def SevTok.upper : SevTok → String
  | .security => "SECURITY"
  | .critical => "CRITICAL"
  | .high => "HIGH"
  | .medium => "MEDIUM"
  | .low => "LOW"
  | .info => "INFO"

def SevTok.lower : SevTok → String
  | .security => "security"
  | .critical => "critical"
  | .high => "high"
  | .medium => "medium"
  | .low => "low"
  | .info => "info"

/-- Decimal digit character. -/
def digitChar (n : Nat) : Char := Char.ofNat (48 + n)

/-- Decimal digit list of a natural number (fuelled, most significant
first). -/
def natDigitsF : Nat → Nat → List Char
  | 0, _ => []
  | fuel + 1, n => if n < 10 then [digitChar n] else natDigitsF fuel (n / 10) ++ [digitChar (n % 10)]

def natDigits (n : Nat) : List Char := natDigitsF (n + 1) n

/-- Slash join of the path segments. -/
def joinSlash : List String → String
  | [] => ""
  | [s] => s
  | s :: rest => s ++ "/" ++ joinSlash rest

/-- A marker of the canonical family. -/
structure SpecMarker where
  sev : SevTok
  title : String
  segs : List String
  line : Nat

/-- Title characters: ASCII alphanumerics and spaces. -/
def isTitleChar (c : Char) : Bool := c.isAlphanum || c = ' '

/-- Path segment characters: lowercase letters, digits and dots. -/
def isSegChar (c : Char) : Bool := c.isLower || c.isDigit || c = '.'

/-- Well-formed title: nonempty, over the title alphabet, starting and
ending alphanumeric. -/
def wfTitleB (t : List Char) : Bool :=
  !t.isEmpty && t.all isTitleChar &&
  (match t.head? with | some c => c.isAlphanum | none => false) &&
  (match t.getLast? with | some c => c.isAlphanum | none => false)

/-- Well-formed segment: nonempty over the segment alphabet. -/
def wfSegB (s : List Char) : Bool := !s.isEmpty && s.all isSegChar

/-- Well-formed marker. -/
def wfMarkerB (m : SpecMarker) : Bool :=
  wfTitleB m.title.data && !m.segs.isEmpty && m.segs.all (fun s => wfSegB s.data)

/-- One rendered marker line. -/
def renderMarker (m : SpecMarker) : String :=
  "[" ++ m.sev.upper ++ "] " ++ m.title ++ " - " ++ joinSlash m.segs ++ ":" ++
    (⟨natDigits m.line⟩ : String) ++ "\n"

/-- Concatenation of a list of strings. -/
def concatStrs : List String → String
  | [] => ""
  | s :: rest => s ++ concatStrs rest

/-- The rendered marker text of a marker list. -/
def renderMarkers (l : List SpecMarker) : String := concatStrs (l.map renderMarker)

/-- Character form of the slash-prefixed tail segments of the canonical
marker family. -/
def segsTail : List String → List Char
  | [] => []
  | s :: ss => '/' :: (s.data ++ segsTail ss)

/-! ### Concrete inputs used by counterexamples and witnesses -/

/-- A diff on which redaction is not idempotent: the GitHub-token match
swallows the PEM BEGIN header's closing dashes, and a second pass then
completes a PEM match across the inserted placeholder. -/
def c7Input : String :=
  "-----BEGIN ghp_aaaaaaaaaa-aaaaaaaaaa-----\n-----END A----------END B-----"

/-- A review whose finding carries a backtick in its file path. -/
def c9Review : Review :=
  { summary := "ok", overall_risk := "low",
    issues := [{ file := "a`b", line := none, severity := "high", title := "t",
                 detail := "d", suggestion := none, tags := none }] }

/-- A plain-text response whose long s uppercases into the severity word
list. -/
def c2Input : String := "\u017Fecurity:x HIGH"

/-- An embedded-JSON response with a critical finding and no explicit
overall risk. -/
def c3Input : String := "note \x7b\"issues\":[\x7b\"severity\":\"critical\"\x7d]\x7d"

/-- Leading prose, a balanced JSON object, then a stray closing brace. -/
def c5Input : String := "hi \x7b\"issues\":[]\x7d \x7d"

/-- Leading prose before a balanced embedded JSON object with one issue. -/
def c5WitnessInput : String :=
  "note \x7b\"summary\":\"s\",\"issues\":[\x7b\"title\":\"t\"\x7d]\x7d"

/-- A response on which the pattern extractor captures the same finding
twice: the raw dedup key renders the captured line string zero as the text
0, while the stored key renders the parsed number zero as no-line. -/
def c10Input : String := "HIGH a - 07\nHIGH a - 07"

/-- A single well-formed marker used to instantiate the rendered-marker
roundtrip. -/
def c4WitnessMarker : SpecMarker :=
  { sev := .high, title := "Bad thing", segs := ["a", "b.js"], line := 3 }

/-! ## Helper lemmas -/

set_option maxRecDepth 2000

theorem char_ofNat_toNat_of_valid (n : Nat) (h : n < 0xd800) :
    (Char.ofNat n).toNat = n := by
  have hv : n.isValidChar := Or.inl h
  rw [Char.ofNat, dif_pos hv]
  rfl

/-- Lowercasing is blind to an ASCII case flip. -/
theorem toLower_flip (p : Char) : jsToLowerChar (asciiFlipCase p) = jsToLowerChar p := by
  unfold asciiFlipCase jsToLowerChar
  by_cases h1 : (65 ≤ p.toNat && p.toNat ≤ 90) = true
  · rw [if_pos h1]
    simp only [Bool.and_eq_true, decide_eq_true_eq] at h1
    have ht : (Char.ofNat (p.toNat + 32)).toNat = p.toNat + 32 :=
      char_ofNat_toNat_of_valid _ (by omega)
    simp only [Char.toLower, ht]
    rw [if_neg (by omega), if_pos (by omega)]
  · rw [if_neg h1]
    by_cases h2 : (97 ≤ p.toNat && p.toNat ≤ 122) = true
    · rw [if_pos h2]
      simp only [Bool.and_eq_true, decide_eq_true_eq] at h2
      have ht : (Char.ofNat (p.toNat - 32)).toNat = p.toNat - 32 :=
        char_ofNat_toNat_of_valid _ (by omega)
      simp only [Char.toLower, ht]
      rw [if_pos (by omega), if_neg (by omega)]
      have h3 : p.toNat - 32 + 32 = p.toNat := by omega
      rw [h3, Char.ofNat_toNat]
    · rw [if_neg h2]

/-- On ASCII characters, lowercasing after the modelled uppercase map agrees
with plain lowercasing. -/
theorem toLower_toUpper_ascii (c : Char) (h : c.toNat < 128) :
    jsToLowerChar (jsToUpperChar c) = jsToLowerChar c := by
  have h1 : c ≠ 'ſ' := by intro he; subst he; exact absurd h (by decide)
  have h2 : c ≠ 'ı' := by intro he; subst he; exact absurd h (by decide)
  unfold jsToUpperChar jsToLowerChar
  rw [if_neg h1, if_neg h2]
  simp only [Char.toUpper, Char.toLower]
  by_cases hl : (c.toNat ≥ 97 ∧ c.toNat ≤ 122)
  · rw [if_pos hl]
    have ht : (Char.ofNat (c.toNat - 32)).toNat = c.toNat - 32 :=
      char_ofNat_toNat_of_valid _ (by omega)
    rw [ht, if_pos (by omega), if_neg (by omega)]
    have h3 : c.toNat - 32 + 32 = c.toNat := by omega
    rw [h3, Char.ofNat_toNat]
  · rw [if_neg hl]

theorem jsToLower_jsToUpper_ascii (s : String) (h : ∀ c ∈ s.data, c.toNat < 128) :
    jsToLower (jsToUpper s) = jsToLower s := by
  unfold jsToLower jsToUpper
  cases s with
  | mk l =>
    simp only [List.map_map]
    congr 1
    exact List.map_congr_left fun c hc => toLower_toUpper_ascii c (h c hc)

/-! ## Claim C6: the global payload ceiling -/

/-- C6, counterexample: with a two-character patch and a global ceiling of
five characters, the budgeted and truncated payload is forty-six characters
long — the truncation suffix is appended after the slice, so the output
exceeds the configured global ceiling. -/
theorem c6_counterexample :
    ¬ ((truncate (formatUnifiedPatch [{ filename := "a.js", patch := some "xx" }]) 5).length ≤ 5) := by
  decide

/-- C6, amended: for every file sequence and global ceiling, the payload
produced by the per-file and total budgeting followed by global truncation
is bounded by the ceiling plus the length of the fixed truncation suffix
(forty-one characters) — not by the ceiling itself. -/
theorem c6_amended_global_bound (files : List ChangedFile) (n : Nat) :
    (truncate (formatUnifiedPatch files) n).length ≤ n + truncSuffix.length := by
  unfold truncate
  by_cases h : (formatUnifiedPatch files).length ≤ n
  · rw [if_pos h]
    omega
  · rw [if_neg h]
    rw [String.length_append]
    have h2 : ((⟨(formatUnifiedPatch files).data.take n⟩ : String)).length =
        ((formatUnifiedPatch files).data.take n).length := rfl
    have h3 : ((formatUnifiedPatch files).data.take n).length ≤ n := by
      simp [List.length_take]
    omega

/-! ## Claim C8: segment-anchored sensitive-pattern matching -/

/-- C8, counterexample: the path src/candid_rsa_tool.js contains the
sensitive word id_rsa only as an interior substring of a longer segment,
yet the classifier excludes it (while the same path without the embedded
word is kept) — the id_rsa pattern is a bare substring match, not a
segment-anchored one. -/
theorem c8_counterexample :
    isSensitiveFile "src/candid_rsa_tool.js" = true ∧
    isSensitiveFile "src/candid_tool.js" = false := by
  decide

/-- C8, amended: the directory patterns are segment-anchored, but the id_rsa
and id_dsa patterns match case-insensitively at any position: every path
containing either word as a substring is excluded, even inside a longer
segment. -/
theorem c8_amended_substring_exclusion (p : String)
    (h : containsCIB p.data "ID_RSA".data = true ∨ containsCIB p.data "ID_DSA".data = true) :
    isSensitiveFile p = true := by
  unfold isSensitiveFile
  rcases h with h | h <;> simp [h]

theorem c8_amended_substring_exclusion_witness :
    (containsCIB "src/candid_rsa_tool.js".data "ID_RSA".data = true ∨
      containsCIB "src/candid_rsa_tool.js".data "ID_DSA".data = true) ∧
    isSensitiveFile "src/candid_rsa_tool.js" = true :=
  ⟨Or.inl (by decide), c8_amended_substring_exclusion _ (Or.inl (by decide))⟩

/-! ## Claim C9: escaping of rendered free-text fields -/

/-- The escaper's output never holds a markdown-structural character outside
a backslash escape. -/
theorem noUnescaped_escapeMdL (l : List Char) : noUnescapedMd (escapeMdL l) = true := by
  induction l with
  | nil => rfl
  | cons c t ih =>
    cases hs : isMdSpecial c with
    | true =>
      simp only [escapeMdL, hs, if_true]
      unfold noUnescapedMd at ih ⊢
      simp only [noUnescapedMdSt, if_neg (Bool.false_ne_true), if_pos rfl]
      exact ih
    | false =>
      have hc : c ≠ '\\' := by
        intro he
        subst he
        simp [isMdSpecial] at hs
      simp only [escapeMdL, hs, Bool.false_eq_true, if_false]
      unfold noUnescapedMd at ih ⊢
      simp only [noUnescapedMdSt, if_neg (Bool.false_ne_true), if_neg hc]
      simp [hs, ih]

/-- A member of the joined lines is a contiguous substring of the join. -/
theorem mem_infix_joinNl (l : List String) (s : String) (h : s ∈ l) :
    s.data <:+: (joinNl l).data := by
  induction l with
  | nil => cases h
  | cons a t ih =>
    cases t with
    | nil =>
      rcases List.mem_cons.mp h with rfl | h2
      · exact List.infix_refl _
      · cases h2
    | cons b u =>
      rcases List.mem_cons.mp h with rfl | h2
      · refine ⟨[], ("\n" ++ joinNl (b :: u)).data, ?_⟩
        simp [joinNl, String.data_append]
      · have hin := ih h2
        obtain ⟨p, q, hpq⟩ := hin
        refine ⟨(a ++ "\n").data ++ p, q, ?_⟩
        simp only [joinNl, String.data_append]
        rw [← hpq]
        simp [String.data_append, List.append_assoc]

/-- The rendered finding block holds the file path verbatim. -/
theorem file_infix_findingLine (n : Nat) (i : Finding) :
    i.file.data <:+: (findingLine n i).data := by
  unfold findingLine
  refine ⟨("- **" ++ toString (n + 1) ++ ". [" ++ jsToUpper i.severity ++ "] " ++
    escapeMarkdown i.title ++ "** — `").data, _, rfl⟩

/-- Every issue of a nonempty issue list contributes its rendered block to
the lines of asMarkdown. -/
theorem findingLine_mem_enumFrom (l : List Finding) (i : Finding) (h : i ∈ l) (k : Nat) :
    ∃ n, findingLine n i ∈ (List.enumFrom k l).map (fun p => findingLine p.1 p.2) := by
  induction l generalizing k with
  | nil => cases h
  | cons a t ih =>
    rcases List.mem_cons.mp h with rfl | h2
    · exact ⟨k, by simp [List.enumFrom]⟩
    · obtain ⟨n, hn⟩ := ih h2 (k + 1)
      exact ⟨n, by simp only [List.enumFrom, List.map_cons, List.mem_cons]; right; exact hn⟩

/-- C9, counterexample: on a review whose file path holds a backtick, the
renderer differs from the specification-side renderer that escapes every
free-text field, and the raw backtick-bearing path appears verbatim in the
output — the file field passes through unescaped. -/
theorem c9_counterexample :
    asMarkdown c9Review ≠ asMarkdownEscAll c9Review ∧
    containsB (asMarkdown c9Review).data "a`b".data = true := by
  decide

/-- C9, amended: the renderer escapes the summary, title, detail and
suggestion through escapeMarkdown, whose output never holds an unescaped
markdown-structural character; the file field however is embedded verbatim,
appearing as a contiguous raw substring of the rendered document. -/
theorem c9_amended_escaping (r : Review) (i : Finding) (h : i ∈ r.issues) :
    (∀ s : String, noUnescapedMd (escapeMarkdown s).data = true) ∧
    i.file.data <:+: (asMarkdown r).data := by
  constructor
  · intro s
    exact noUnescaped_escapeMdL s.data
  · unfold asMarkdown
    have hne : ¬ (r.issues.length = 0) := by
      intro h0
      rw [List.length_eq_zero] at h0
      rw [h0] at h
      cases h
    simp only [if_neg hne]
    obtain ⟨n, hn⟩ := findingLine_mem_enumFrom r.issues i h 0
    have hmem : findingLine n i ∈
        (["### 🤖 AI Code Review (" ++ jsToUpper r.overall_risk ++ ")", "",
          escapeMarkdown r.summary, ""] ++
         (("**Findings (" ++ toString r.issues.length ++ "):**") ::
          (r.issues.enum.map fun p => findingLine p.1 p.2))) := by
      apply List.mem_append_right
      apply List.mem_cons_of_mem
      simpa [List.enum] using hn
    exact List.IsInfix.trans (file_infix_findingLine n i) (mem_infix_joinNl _ _ hmem)

theorem c9_amended_escaping_witness :
    ((c9Review.issues.head? = some
      { file := "a`b", line := none, severity := "high", title := "t",
        detail := "d", suggestion := none, tags := none }) ∧
     ((∀ s : String, noUnescapedMd (escapeMarkdown s).data = true) ∧
      ("a`b" : String).data <:+: (asMarkdown c9Review).data)) :=
  ⟨by decide, c9_amended_escaping c9Review
    { file := "a`b", line := none, severity := "high", title := "t",
      detail := "d", suggestion := none, tags := none } (by decide)⟩

/-! ## Claim C7: idempotence of redaction -/

/-- C7, counterexample: applying sanitizeDiff twice to c7Input differs from
applying it once.  The first pass redacts the GitHub token together with
the five dashes that close the PEM BEGIN header; the second pass then finds
a complete PEM block spanning the token placeholder and collapses the whole
text to the PEM placeholder. -/
theorem c7_counterexample :
    sanitizeDiff (sanitizeDiff c7Input) ≠ sanitizeDiff c7Input := by
  decide

/-! ## Claim C10: deduplication of pattern-extracted findings -/

/-- C10: on c10Input the pattern extractor returns two findings agreeing on
file, line, severity and title simultaneously.  The dedup guard compares
the raw capture key against keys rebuilt from the cleaned stored fields:
the captured line string 0 is truthy and renders as 0 in the raw key, while
the stored parsed number 0 is falsy and renders as no-line, so the second
identical match is appended instead of skipped — contradicting the
source's own comment that an already captured issue is not added again. -/
theorem c10_duplicate_findings :
    (extractIssuesFromTextV10 c10Input).issues.map
      (fun i => (i.file, i.line, i.severity, i.title)) =
    [("unknown", some 0, "high", "HIGH a - 07"),
     ("unknown", some 0, "high", "HIGH a - 07")] := by
  decide

/-! ## Claim C1: the loud-failure terminal of the cascade -/

/-- C1: whenever the strict decode fails, the embedded-JSON extraction
fails, the pattern extractor finds nothing and the text has no positive
phrasing, the interpreter returns (without throwing — the model is total)
the generic Review: overall risk medium, exactly one finding, and that
finding tagged parsing-error with severity medium and the fixed script
sentinel as its file. -/
theorem c1_loud_failure (text : String)
    (hA : strategyA text = none)
    (hB : strategyB text = none)
    (hP : (extractIssuesFromTextV10 text).issues = [])
    (hG : containsB (jsToLower text).data "looks good".data = false)
    (hN : containsB (jsToLower text).data "no issues".data = false) :
    (interpretResponse text).overall_risk = "medium" ∧
    (interpretResponse text).issues.length = 1 ∧
    ∀ i ∈ (interpretResponse text).issues,
      i.severity = "medium" ∧ i.file = "ai-review-script" ∧ i.tags = some ["parsing-error"] := by
  have hr : interpretResponse text = parsingFailedReview := by
    unfold interpretResponse attemptRobustParsing
    rw [hA, hB]
    simp [hP, hG, hN]
  rw [hr]
  refine ⟨rfl, rfl, ?_⟩
  intro i hi
  rcases List.mem_cons.mp hi with rfl | h2
  · exact ⟨rfl, rfl, rfl⟩
  · cases h2

theorem c1_loud_failure_witness :
    (strategyA "gibberish" = none ∧ strategyB "gibberish" = none ∧
     (extractIssuesFromTextV10 "gibberish").issues = [] ∧
     containsB (jsToLower "gibberish").data "looks good".data = false ∧
     containsB (jsToLower "gibberish").data "no issues".data = false) ∧
    ((interpretResponse "gibberish").overall_risk = "medium" ∧
     (interpretResponse "gibberish").issues.length = 1 ∧
     ∀ i ∈ (interpretResponse "gibberish").issues,
       i.severity = "medium" ∧ i.file = "ai-review-script" ∧
       i.tags = some ["parsing-error"]) :=
  ⟨⟨by decide, by decide, by decide, by decide, by decide⟩,
    c1_loud_failure "gibberish" (by decide) (by decide) (by decide) (by decide) (by decide)⟩

/-! ## Claim C3: the risk-derivation rule across strategies -/

/-- C3, counterexample: on an embedded-JSON response with a critical finding
and no OVERALL RISK token, Strategy B returns overall risk low, while the
specification's derivation rule computes critical — the derivation is not
applied in Strategy B at all (an absent or invalid risk field simply
defaults to low). -/
theorem c3_counterexample :
    riskFind c3Input.data = none ∧
    (interpretResponse c3Input).issues.map (fun i => i.severity) = ["critical"] ∧
    (interpretResponse c3Input).overall_risk = "low" ∧
    deriveRiskSpec (interpretResponse c3Input).issues = "critical" := by
  decide

/-- The guarded severity chain used inside the v1.1 extractor coincides with
the bare derivation rule: on an empty list both give low, on a nonempty list
the guard is true and the chains are identical. -/
theorem risk_if_len (l : List Finding) :
    (if l.length > 0 then
       if l.any (fun i => i.severity = "critical" || i.severity = "security") then
         "critical"
       else if l.any (fun i => i.severity = "high") then "high"
       else if l.any (fun i => i.severity = "medium") then "medium"
       else "low"
     else "low") = deriveRiskSpec l := by
  cases l with
  | nil => rfl
  | cons a t => simp [deriveRiskSpec]

/-- C3, amended: the fallback derivation (critical or security to critical,
else high to high, else medium to medium, else low) is applied by the
marker-delimited Strategy C extractor whenever the text has no explicit
OVERALL RISK token; its result always equals the specification's derivation
rule on the extracted findings. -/
theorem c3_amended_derivation_strategy_c (text : String)
    (h : riskFind text.data = none) :
    (extractIssuesFromTextV11 text).overall_risk =
      deriveRiskSpec (extractIssuesFromTextV11 text).issues := by
  unfold extractIssuesFromTextV11
  simp only [h]
  exact risk_if_len _

theorem c3_amended_derivation_strategy_c_witness :
    riskFind ("[CRITICAL] Bad thing - a/b.js:3\n" : String).data = none ∧
    (extractIssuesFromTextV11 "[CRITICAL] Bad thing - a/b.js:3\n").overall_risk =
      deriveRiskSpec (extractIssuesFromTextV11 "[CRITICAL] Bad thing - a/b.js:3\n").issues :=
  ⟨by decide, c3_amended_derivation_strategy_c _ (by decide)⟩

/-! ## Claim C5: the embedded-JSON extraction span -/

/-- C5, counterexample: on leading prose, a balanced JSON object and a stray
trailing closing brace, the first balanced top-level span is valid JSON
(with zero issues), yet Strategy B fails and the cascade falls through to
the loud-failure review — the regex selects the span from the first opening
brace to the LAST closing brace, not the first balanced span. -/
theorem c5_counterexample :
    strategyA c5Input = none ∧
    firstBalancedSpan c5Input = some "\x7b\"issues\":[]\x7d" ∧
    (jsonParse "\x7b\"issues\":[]\x7d").isSome = true ∧
    strategyB c5Input = none ∧
    interpretResponse c5Input = parsingFailedReview := by
  decide

/-- Strategy B's normalising map fails exactly on a null entry of the issues
array. -/
theorem buildB_none_iff (v : JVal) : buildB v = none ↔ issuesHasNull v = true := by
  unfold buildB issuesHasNull
  cases hg : jvalGet v "issues" with
  | none => simp
  | some w =>
    cases w with
    | arr xs =>
      by_cases hn : xs.any (fun e => match e with | .null => true | _ => false) = true
      · simp [hn]
      · simp [hn]
    | null => simp
    | bool b => simp
    | num q => simp
    | str s => simp
    | obj fs => simp

/-- When Strategy B's map succeeds, the returned issues are exactly the
mapped entries of the embedded issues array. -/
theorem buildB_some_len (v : JVal) (r : Review) (h : buildB v = some r) :
    r.issues.length = jsIssuesLen v := by
  unfold buildB at h
  unfold jsIssuesLen
  cases hg : jvalGet v "issues" with
  | none =>
    rw [hg] at h
    simp only [Option.some_inj] at h
    rw [← h]
    rfl
  | some w =>
    rw [hg] at h
    cases w with
    | arr xs =>
      by_cases hn : xs.any (fun e => match e with | .null => true | _ => false) = true
      · simp [hn] at h
      · simp only [hn, Bool.false_eq_true, if_false] at h
        simp only [Option.some_inj] at h
        rw [← h]
        simp
    | null => simp only [Option.some_inj] at h; rw [← h]; rfl
    | bool b => simp only [Option.some_inj] at h; rw [← h]; rfl
    | num q => simp only [Option.some_inj] at h; rw [← h]; rfl
    | str s => simp only [Option.some_inj] at h; rw [← h]; rfl
    | obj fs => simp only [Option.some_inj] at h; rw [← h]; rfl

/-- C5, amended: Strategy B selects the span from the first opening brace to
the last closing brace of the text.  Given that span, the extraction
succeeds if and only if the span parses as JSON whose issues array (when it
is an array) holds no null entry; on success the Review's issues length
equals that array's length (zero when issues is absent or not an array). -/
theorem c5_amended_span_semantics (text span : String) (h : jsonSpan text = some span) :
    (strategyB text = none ↔
      jsonParse span = none ∨ ∃ v, jsonParse span = some v ∧ issuesHasNull v = true) ∧
    (∀ r, strategyB text = some r → ∃ v, jsonParse span = some v ∧
      r.issues.length = jsIssuesLen v) := by
  unfold strategyB
  rw [h]
  simp only [Option.some_bind]
  cases hp : jsonParse span with
  | none => simp
  | some v =>
    simp only [Option.some_bind]
    constructor
    · rw [buildB_none_iff]
      constructor
      · intro hb
        exact Or.inr ⟨v, rfl, hb⟩
      · intro hb
        rcases hb with hb | ⟨w, hw, hnull⟩
        · cases hb
        · cases hw
          exact hnull
    · intro r hr
      exact ⟨v, rfl, buildB_some_len v r hr⟩

theorem c5_amended_span_semantics_witness :
    jsonSpan c5WitnessInput =
      some "\x7b\"summary\":\"s\",\"issues\":[\x7b\"title\":\"t\"\x7d]\x7d" ∧
    ((strategyB c5WitnessInput = none ↔
      jsonParse "\x7b\"summary\":\"s\",\"issues\":[\x7b\"title\":\"t\"\x7d]\x7d" = none ∨
      ∃ v, jsonParse "\x7b\"summary\":\"s\",\"issues\":[\x7b\"title\":\"t\"\x7d]\x7d" = some v ∧
        issuesHasNull v = true) ∧
     (∀ r, strategyB c5WitnessInput = some r →
       ∃ v, jsonParse "\x7b\"summary\":\"s\",\"issues\":[\x7b\"title\":\"t\"\x7d]\x7d" = some v ∧
         r.issues.length = jsIssuesLen v)) :=
  ⟨by decide, c5_amended_span_semantics c5WitnessInput _ (by decide)⟩

/-! ## Claim C7, amended half: the AWS pass alone is idempotent -/

/-- A prefix test only inspects the first pattern-length characters. -/
theorem isPrefixB_take (p : List Char) :
    ∀ (n : Nat) (xs : List Char), p.length ≤ n →
      isPrefixB p (xs.take n) = isPrefixB p xs := by
  induction p with
  | nil => intro n xs _; rfl
  | cons q ps ih =>
    intro n xs h
    cases n with
    | zero => simp at h
    | succ m =>
      cases xs with
      | nil => simp
      | cons c t =>
        simp only [List.take_succ_cons, isPrefixB]
        rw [ih m t (Nat.le_of_succ_le_succ (by simpa using h))]

/-- A successful prefix test pins down the corresponding initial segment. -/
theorem isPrefixB_take_eq : ∀ (p xs : List Char), isPrefixB p xs = true →
    xs.take p.length = p := by
  intro p
  induction p with
  | nil => intro xs _; rfl
  | cons q ps ih =>
    intro xs h
    cases xs with
    | nil => exact absurd h (by simp [isPrefixB])
    | cons c t =>
      simp only [isPrefixB, Bool.and_eq_true, decide_eq_true_eq] at h
      obtain ⟨h1, h2⟩ := h
      simp only [List.length_cons, List.take_succ_cons, ih t h2, h1]

/-- The AWS match test only inspects the first twenty characters. -/
theorem awsAt_take20 (xs ys : List Char) (h : xs.take 20 = ys.take 20) :
    awsAt xs = awsAt ys := by
  have hpre : isPrefixB "AKIA".data xs = isPrefixB "AKIA".data ys := by
    rw [← isPrefixB_take "AKIA".data 20 xs (by decide),
        ← isPrefixB_take "AKIA".data 20 ys (by decide), h]
  have hw : (xs.drop 4).take 16 = (ys.drop 4).take 16 := by
    have h1 : List.drop 4 (List.take 20 xs) = List.drop 4 (List.take 20 ys) := by rw [h]
    rw [List.drop_take, List.drop_take] at h1
    simpa using h1
  simp only [awsAt]
  rw [hpre, hw]

/-- An opening bracket inside the twenty-character window rules out an AWS
match: it is neither part of the AKIA literal nor an uppercase alphanumeric. -/
theorem awsAt_bracket (xs : List Char) (h : '[' ∈ xs.take 20) :
    awsAt xs = false := by
  cases hx : awsAt xs with
  | false => rfl
  | true =>
    exfalso
    simp only [awsAt, Bool.and_eq_true, decide_eq_true_eq] at hx
    obtain ⟨h1, _, h3⟩ := hx
    have h4 : xs.take 4 = "AKIA".data := isPrefixB_take_eq "AKIA".data xs h1
    rw [show (20 : Nat) = 4 + 16 from rfl, List.take_add, h4] at h
    rcases List.mem_append.mp h with h5 | h5
    · exact absurd h5 (by decide)
    · exact absurd (List.all_eq_true.mp h3 _ h5) (by decide)

/-- No AWS match starts inside the redaction placeholder, whatever follows. -/
theorem awsAt_ph_drop (n : Nat) (h : n < 18) (t : List Char) :
    awsAt (List.drop n "[REDACTED_AWS_KEY]".data ++ t) = false := by
  interval_cases n <;> rfl

/-- The AWS scanner only ever copies an input prefix verbatim or copies an
input prefix and then emits an opening bracket. -/
theorem sanitizeAwsGo_pref : ∀ (fuel : Nat) (cs : List Char),
    sanitizeAwsGo fuel cs = cs ∨
      ∃ a rest, sanitizeAwsGo fuel cs = cs.take a ++ '[' :: rest := by
  intro fuel
  induction fuel with
  | zero => intro cs; exact Or.inl (by cases cs <;> rfl)
  | succ f ih =>
    intro cs
    cases cs with
    | nil => exact Or.inl rfl
    | cons c t =>
      by_cases hm : awsAt (c :: t) = true
      · right
        refine ⟨0, "REDACTED_AWS_KEY]".data ++ sanitizeAwsGo f ((c :: t).drop 20), ?_⟩
        simp only [sanitizeAwsGo, hm, if_true, List.take_zero, List.nil_append]
        rfl
      · have hm' : awsAt (c :: t) = false := by
          cases hx : awsAt (c :: t) with
          | false => rfl
          | true => exact absurd hx hm
        rcases ih t with h | ⟨a, rest, h⟩
        · left
          simp [sanitizeAwsGo, hm', h]
        · right
          refine ⟨a + 1, rest, ?_⟩
          simp [sanitizeAwsGo, hm', h, List.take_succ_cons]

/-- A redaction placeholder downstream never creates a fresh AWS match at a
kept character: the bracket either sits inside the twenty-character window
(killing the match) or beyond it (leaving the window as in the input). -/
theorem awsAt_cons_pres (c : Char) (cs out : List Char)
    (hrel : out = cs ∨ ∃ a rest, out = cs.take a ++ '[' :: rest)
    (h : awsAt (c :: cs) = false) : awsAt (c :: out) = false := by
  rcases hrel with rfl | ⟨a, rest, rfl⟩
  · exact h
  · by_cases hl : (cs.take a).length ≤ 18
    · apply awsAt_bracket
      obtain ⟨k, hk⟩ : ∃ k, 19 - (cs.take a).length = k + 1 :=
        ⟨18 - (cs.take a).length, by omega⟩
      rw [show (20 : Nat) = 19 + 1 from rfl, List.take_succ_cons,
          List.take_append_eq_append_take, hk, List.take_succ_cons]
      exact List.mem_cons_of_mem _
        (List.mem_append_right _ (List.mem_cons_self _ _))
    · have htake : (c :: (cs.take a ++ '[' :: rest)).take 20 = (c :: cs).take 20 := by
        rw [show (20 : Nat) = 19 + 1 from rfl, List.take_succ_cons, List.take_succ_cons,
            List.take_append_eq_append_take]
        have h0 : 19 - (cs.take a).length = 0 := by omega
        rw [h0, List.take_zero, List.append_nil, List.take_take]
        have ha : 19 ≤ a := by
          have := List.length_take a cs
          omega
        rw [min_eq_left ha]
      rw [awsAt_take20 _ _ htake]
      exact h

/-- The AWS scanner's output never contains an AWS match at any position. -/
theorem sanitizeAwsGo_clean : ∀ (fuel : Nat) (cs : List Char), cs.length ≤ fuel →
    ∀ n, awsAt ((sanitizeAwsGo fuel cs).drop n) = false := by
  intro fuel
  induction fuel with
  | zero =>
    intro cs hc n
    have hnil : cs = [] := List.length_eq_zero.mp (Nat.le_zero.mp hc)
    subst hnil
    rw [show sanitizeAwsGo 0 [] = [] from rfl, List.drop_nil]
    rfl
  | succ f ih =>
    intro cs hc n
    cases cs with
    | nil =>
      rw [show sanitizeAwsGo (f + 1) [] = [] from rfl, List.drop_nil]
      rfl
    | cons c t =>
      by_cases hm : awsAt (c :: t) = true
      · have hgo : sanitizeAwsGo (f + 1) (c :: t) =
            "[REDACTED_AWS_KEY]".data ++ sanitizeAwsGo f ((c :: t).drop 20) := by
          simp [sanitizeAwsGo, hm]
        rw [hgo, List.drop_append_eq_append_drop]
        by_cases hn : n < 18
        · have h0 : n - "[REDACTED_AWS_KEY]".data.length = 0 := by
            have h18 : "[REDACTED_AWS_KEY]".data.length = 18 := rfl
            omega
          rw [h0, List.drop_zero]
          exact awsAt_ph_drop n hn _
        · have hdr : List.drop n "[REDACTED_AWS_KEY]".data = [] := by
            apply List.drop_eq_nil_of_le
            rw [show ("[REDACTED_AWS_KEY]".data.length) = 18 from rfl]
            omega
          rw [hdr, List.nil_append]
          apply ih
          simp only [List.length_drop, List.length_cons]
          simp only [List.length_cons] at hc
          omega
      · have hm' : awsAt (c :: t) = false := by
          cases hx : awsAt (c :: t) with
          | false => rfl
          | true => exact absurd hx hm
        have hgo : sanitizeAwsGo (f + 1) (c :: t) = c :: sanitizeAwsGo f t := by
          simp [sanitizeAwsGo, hm']
        rw [hgo]
        have hlt : t.length ≤ f := by
          simp only [List.length_cons] at hc
          omega
        cases n with
        | zero =>
          rw [List.drop_zero]
          exact awsAt_cons_pres c t _ (sanitizeAwsGo_pref f t) hm'
        | succ m =>
          rw [List.drop_succ_cons]
          exact ih t hlt m

/-- On match-free input the AWS scanner is the identity. -/
theorem sanitizeAwsGo_id : ∀ (fuel : Nat) (cs : List Char),
    (∀ n, awsAt (cs.drop n) = false) → sanitizeAwsGo fuel cs = cs := by
  intro fuel
  induction fuel with
  | zero => intro cs _; cases cs <;> rfl
  | succ f ih =>
    intro cs h
    cases cs with
    | nil => rfl
    | cons c t =>
      have h0 : awsAt (c :: t) = false := by
        have := h 0
        simpa using this
      have ht : ∀ n, awsAt (t.drop n) = false := by
        intro n
        have := h (n + 1)
        simpa [List.drop_succ_cons] using this
      simp [sanitizeAwsGo, h0, ih t ht]

/-- C7, amended half: the AWS-key redaction pass is idempotent — a second
application of sanitizeAws returns its input unchanged, for every input. -/
theorem c7_amended_aws_idempotent (cs : List Char) :
    sanitizeAws (sanitizeAws cs) = sanitizeAws cs := by
  unfold sanitizeAws
  exact sanitizeAwsGo_id _ _ (sanitizeAwsGo_clean cs.length cs (Nat.le_refl _))

/-! ## Claim C2: the closed severity and risk sets -/

/-- A find over the match array returns an element of it that satisfies the
predicate. -/
theorem findSome_mem : ∀ (arr : List (Option String)) (p : String → Bool) (m : String),
    findSome arr p = some m → some m ∈ arr ∧ p m = true := by
  intro arr p
  induction arr with
  | nil => intro m h; exact absurd h (by simp [findSome])
  | cons a rest ih =>
    intro m h
    cases a with
    | none =>
      have h2 := ih m (by simpa [findSome] using h)
      exact ⟨List.mem_cons_of_mem _ h2.1, h2.2⟩
    | some s =>
      rw [show findSome (some s :: rest) p = if p s then some s else findSome rest p
        from rfl] at h
      by_cases hp : p s = true
      · rw [if_pos hp] at h
        obtain rfl : s = m := Option.some_inj.mp h
        exact ⟨List.mem_cons_self _ _, hp⟩
      · rw [if_neg hp] at h
        have h2 := ih m h
        exact ⟨List.mem_cons_of_mem _ h2.1, h2.2⟩

/-- Characters of a subject slice are characters of the subject. -/
theorem mem_sliceStr (input : List Char) (s e : Nat) (c : Char)
    (h : c ∈ (sliceStr input s e).data) : c ∈ input :=
  List.mem_of_mem_drop (List.mem_of_mem_take h)

/-- Every defined element of a match array is a slice of the subject. -/
theorem matchArr_slice (input : List Char) (ng idx e : Nat) (caps : Caps)
    (m : String) (h : some m ∈ matchArr input ng idx e caps) :
    ∃ a b, m = sliceStr input a b := by
  unfold matchArr at h
  rcases List.mem_cons.mp h with h1 | h1
  · exact ⟨idx, e, Option.some_inj.mp h1⟩
  · obtain ⟨i, _, hmap⟩ := List.mem_map.mp h1
    obtain ⟨p, _, hpe⟩ := Option.map_eq_some'.mp hmap
    exact ⟨p.1, p.2, hpe.symm⟩

/-- Every defined element of every global-exec match array is a slice of the
subject. -/
theorem execAll_slice (re : RE) (ng : Nat) (input : List Char) :
    ∀ (fuel pos : Nat) (arr : List (Option String)), arr ∈ execAll re ng input fuel pos →
      ∀ m : String, some m ∈ arr → ∃ a b, m = sliceStr input a b := by
  intro fuel
  induction fuel with
  | zero => intro pos arr h; exact absurd h (by simp [execAll])
  | succ f ih =>
    intro pos arr h m hm
    simp only [execAll] at h
    cases hf : reFindFrom re input (input.length + 1 - pos) pos with
    | none => rw [hf] at h; simp at h
    | some t =>
      rw [hf] at h
      obtain ⟨idx, e, caps⟩ := t
      rcases List.mem_cons.mp h with h1 | h1
      · subst h1
        exact matchArr_slice input ng idx e caps m hm
      · exact ih e arr h1 m hm

/-- A captured match over an ASCII subject that uppercases into the severity
indicator list lowercases into the closed severity set. -/
theorem sev_valid_of_ascii (m : String) (hm : ∀ c ∈ m.data, c.toNat < 128)
    (hin : sevListUpper.contains (jsToUpper m) = true) :
    validSeverities.contains (jsToLower m) = true := by
  have hl : jsToLower m = jsToLower (jsToUpper m) := (jsToLower_jsToUpper_ascii m hm).symm
  have hmem : jsToUpper m ∈ sevListUpper := by simpa using hin
  simp only [sevListUpper, List.mem_cons, List.not_mem_nil, or_false] at hmem
  rcases hmem with h | h | h | h | h <;> rw [hl, h] <;> decide

/-- One extractor step keeps the collected severities in the closed set when
the match-array strings are ASCII. -/
theorem v10Step_sev (issues : List Finding) (arr : List (Option String))
    (hiss : ∀ i ∈ issues, validSeverities.contains i.severity = true)
    (harr : ∀ m : String, some m ∈ arr → ∀ c ∈ m.data, c.toNat < 128) :
    ∀ i ∈ v10Step issues arr, validSeverities.contains i.severity = true := by
  intro i hi
  unfold v10Step at hi
  simp only [] at hi
  split at hi
  · exact hiss i hi
  · rcases List.mem_append.mp hi with h1 | h1
    · exact hiss i h1
    · obtain rfl := List.mem_singleton.mp h1
      cases hf : findSome arr (fun m => sevListUpper.contains (jsToUpper m)) with
      | none => simp only [hf]; decide
      | some m =>
        simp only [hf]
        obtain ⟨hmem, hp⟩ := findSome_mem arr _ m hf
        exact sev_valid_of_ascii m (harr m hmem) hp

/-- The extractor's fold keeps severities in the closed set. -/
theorem foldl_v10_sev : ∀ (arrays : List (List (Option String))),
    (∀ arr ∈ arrays, ∀ m : String, some m ∈ arr → ∀ c ∈ m.data, c.toNat < 128) →
    ∀ (issues : List Finding), (∀ i ∈ issues, validSeverities.contains i.severity = true) →
    ∀ i ∈ arrays.foldl v10Step issues, validSeverities.contains i.severity = true := by
  intro arrays
  induction arrays with
  | nil => intro _ issues hiss i hi; exact hiss i hi
  | cons a rest ih =>
    intro hgood issues hiss i hi
    simp only [List.foldl_cons] at hi
    exact ih (fun arr h2 => hgood arr (List.mem_cons_of_mem _ h2)) (v10Step issues a)
      (v10Step_sev issues a hiss (hgood a (List.mem_cons_self _ _))) i hi

/-- On ASCII input the v1.0.x pattern extractor returns a Review whose risk
and severities lie in the closed sets. -/
theorem v10_valid (text : String) (h : ∀ c ∈ text.data, c.toNat < 128) :
    ReviewValid (extractIssuesFromTextV10 text) := by
  have harrays : ∀ arr ∈ execMatches p1 4 text.data ++ execMatches p2 4 text.data ++
      execMatches p3 3 text.data,
      ∀ m : String, some m ∈ arr → ∀ c ∈ m.data, c.toNat < 128 := by
    intro arr harr m hm c hc
    have hsl : ∃ a b, m = sliceStr text.data a b := by
      rcases List.mem_append.mp harr with h1 | h1
      · rcases List.mem_append.mp h1 with h2 | h2
        · exact execAll_slice _ _ _ _ _ arr h2 m hm
        · exact execAll_slice _ _ _ _ _ arr h2 m hm
      · exact execAll_slice _ _ _ _ _ arr h1 m hm
    obtain ⟨a, b, rfl⟩ := hsl
    exact h c (mem_sliceStr _ _ _ _ hc)
  constructor
  · have he : (extractIssuesFromTextV10 text).overall_risk =
        (if reCount pHigh text.data > 0 then "high"
         else if reCount pMedium text.data > 0 then "medium" else "low") := rfl
    rw [he]
    split
    · decide
    · split <;> decide
  · intro i hi
    unfold extractIssuesFromTextV10 at hi
    simp only [] at hi
    split at hi
    · obtain rfl := List.mem_singleton.mp hi
      split <;> decide
    · exact foldl_v10_sev _ harrays [] (by intro j hj; exact absurd hj (List.not_mem_nil _)) i hi

/-- The risk normalisation shared by the strict decode and Strategy B always
lands in the closed risk set. -/
theorem riskField_valid (v : JVal) :
    validRisks.contains (match jvalGet v "overall_risk" with
      | some (.str s) => if validRisks.contains s then s else "low"
      | _ => "low") = true := by
  cases hg : jvalGet v "overall_risk" with
  | none => simp only [hg]; decide
  | some w =>
    cases w <;> simp only [hg] <;> first
      | decide
      | (split <;> first | assumption | decide)

/-- A finding passing the Issue schema has a severity in the closed set. -/
theorem zodIssue_sev (v : JVal) (f : Finding) (h : zodIssue v = some f) :
    validSeverities.contains f.severity = true := by
  cases v with
  | obj fs =>
    simp only [zodIssue, Option.some_inj] at h
    subst h
    cases hg : jvalGet (JVal.obj fs) "severity" with
    | none => simp only [hg]; decide
    | some w =>
      cases w <;> simp only [hg] <;> first
        | decide
        | (split <;> first | assumption | decide)
  | null => simp [zodIssue] at h
  | bool b => simp [zodIssue] at h
  | num q => simp [zodIssue] at h
  | str s => simp [zodIssue] at h
  | arr xs => simp [zodIssue] at h

/-- A Review passing the ReviewShape schema has risk and severities in the
closed sets. -/
theorem zodReview_valid (v : JVal) (r : Review) (h : zodReview v = some r) :
    ReviewValid r := by
  cases v with
  | obj fs =>
    simp only [zodReview, Option.some_inj] at h
    subst h
    constructor
    · exact riskField_valid (JVal.obj fs)
    · intro i hi
      cases hg : jvalGet (JVal.obj fs) "issues" with
      | none =>
        rw [hg] at hi
        exact absurd (show i ∈ ([] : List Finding) from hi) (List.not_mem_nil _)
      | some w =>
        cases w with
        | arr xs =>
          rw [hg] at hi
          have hi2 : i ∈ (if xs.all isJObj = true then xs.filterMap zodIssue else []) := hi
          split at hi2
          · obtain ⟨x, _, hzi⟩ := List.mem_filterMap.mp hi2
            exact zodIssue_sev x i hzi
          · exact absurd hi2 (List.not_mem_nil _)
        | null =>
          rw [hg] at hi
          exact absurd (show i ∈ ([] : List Finding) from hi) (List.not_mem_nil _)
        | bool b =>
          rw [hg] at hi
          exact absurd (show i ∈ ([] : List Finding) from hi) (List.not_mem_nil _)
        | num q =>
          rw [hg] at hi
          exact absurd (show i ∈ ([] : List Finding) from hi) (List.not_mem_nil _)
        | str s =>
          rw [hg] at hi
          exact absurd (show i ∈ ([] : List Finding) from hi) (List.not_mem_nil _)
        | obj gs =>
          rw [hg] at hi
          exact absurd (show i ∈ ([] : List Finding) from hi) (List.not_mem_nil _)
  | null => simp [zodReview] at h
  | bool b => simp [zodReview] at h
  | num q => simp [zodReview] at h
  | str s => simp [zodReview] at h
  | arr xs => simp [zodReview] at h

/-- Strategy B's per-issue normalisation always yields a severity in the
closed set. -/
theorem buildBIssue_sev (x : JVal) :
    validSeverities.contains (buildBIssue x).severity = true := by
  unfold buildBIssue
  cases hg : jvalGet x "severity" with
  | none => simp only [hg]; decide
  | some w =>
    cases w <;> simp only [hg] <;> first
      | decide
      | (split <;> first | assumption | decide)

/-- A Review built by Strategy B has risk and severities in the closed
sets. -/
theorem buildB_valid (v : JVal) (r : Review) (h : buildB v = some r) :
    ReviewValid r := by
  unfold buildB at h
  cases hg : jvalGet v "issues" with
  | none =>
    simp only [hg, Option.some_inj] at h
    subst h
    exact ⟨riskField_valid v, by
      intro i hi
      exact absurd (show i ∈ ([] : List Finding) from hi) (List.not_mem_nil _)⟩
  | some w =>
    cases w with
    | arr xs =>
      by_cases hn : (xs.any fun e => match e with | .null => true | _ => false) = true
      · simp only [hg, hn, if_true] at h
        exact Option.noConfusion h
      · have hn' : (xs.any fun e => match e with | .null => true | _ => false) = false := by
          cases hx : xs.any fun e => match e with | .null => true | _ => false
          · rfl
          · exact absurd hx hn
        simp only [hg, hn', Bool.false_eq_true, if_false, Option.some_inj] at h
        subst h
        refine ⟨riskField_valid v, ?_⟩
        intro i hi
        obtain ⟨x, _, rfl⟩ := List.mem_map.mp (show i ∈ xs.map buildBIssue from hi)
        exact buildBIssue_sev x
    | null =>
      simp only [hg, Option.some_inj] at h
      subst h
      exact ⟨riskField_valid v, by
        intro i hi
        exact absurd (show i ∈ ([] : List Finding) from hi) (List.not_mem_nil _)⟩
    | bool b =>
      simp only [hg, Option.some_inj] at h
      subst h
      exact ⟨riskField_valid v, by
        intro i hi
        exact absurd (show i ∈ ([] : List Finding) from hi) (List.not_mem_nil _)⟩
    | num q =>
      simp only [hg, Option.some_inj] at h
      subst h
      exact ⟨riskField_valid v, by
        intro i hi
        exact absurd (show i ∈ ([] : List Finding) from hi) (List.not_mem_nil _)⟩
    | str s =>
      simp only [hg, Option.some_inj] at h
      subst h
      exact ⟨riskField_valid v, by
        intro i hi
        exact absurd (show i ∈ ([] : List Finding) from hi) (List.not_mem_nil _)⟩
    | obj gs =>
      simp only [hg, Option.some_inj] at h
      subst h
      exact ⟨riskField_valid v, by
        intro i hi
        exact absurd (show i ∈ ([] : List Finding) from hi) (List.not_mem_nil _)⟩

/-- On ASCII input the whole v1.0.x interpretation cascade returns a Review
with risk and severities in the closed sets. -/
theorem interp_valid (text : String) (h : ∀ c ∈ text.data, c.toNat < 128) :
    ReviewValid (interpretResponse text) := by
  cases hA : strategyA text with
  | some r =>
    have he : interpretResponse text = r := by unfold interpretResponse; rw [hA]
    rw [he]
    unfold strategyA at hA
    obtain ⟨v, _, hz⟩ := Option.bind_eq_some.mp hA
    exact zodReview_valid v r hz
  | none =>
    have he : interpretResponse text = attemptRobustParsing text := by
      unfold interpretResponse; rw [hA]
    rw [he]
    unfold attemptRobustParsing
    cases hB : strategyB text with
    | some r =>
      simp only [hB]
      unfold strategyB at hB
      obtain ⟨span, _, hrest⟩ := Option.bind_eq_some.mp hB
      obtain ⟨v, _, hbd⟩ := Option.bind_eq_some.mp hrest
      exact buildB_valid v r hbd
    | none =>
      simp only [hB]
      split
      · exact v10_valid text h
      · exact ⟨by decide, by decide⟩

/-- A case-insensitive prefix capture lowercases to the lowercased pattern. -/
theorem ciPrefixTake_toLower : ∀ (pat cs cap rest : List Char),
    ciPrefixTake pat cs = some (cap, rest) →
    cap.map jsToLowerChar = pat.map jsToLowerChar := by
  intro pat
  induction pat with
  | nil =>
    intro cs cap rest h
    simp only [ciPrefixTake, Option.some_inj] at h
    cases h
    rfl
  | cons p ps ih =>
    intro cs cap rest h
    cases cs with
    | nil => exact absurd h (by simp [ciPrefixTake])
    | cons c cs' =>
      simp only [ciPrefixTake] at h
      by_cases hc : ciEqChar p c = true
      · rw [if_pos hc] at h
        obtain ⟨q, hq, he⟩ := Option.map_eq_some'.mp h
        cases he
        simp only [List.map_cons]
        rw [ih cs' q.1 q.2 hq]
        have hcl : jsToLowerChar c = jsToLowerChar p := by
          simp only [ciEqChar, Bool.or_eq_true, decide_eq_true_eq] at hc
          rcases hc with rfl | rfl
          · rfl
          · exact toLower_flip p
        rw [hcl]
      · rw [if_neg hc] at h
        exact absurd h (by simp)

/-- The risk level captured by the explicit token lowercases into the closed
risk set. -/
theorem riskCore_valid (cs lvl : List Char) (n : Nat) (h : riskCore cs = some (lvl, n)) :
    validRisks.contains (jsToLower ⟨lvl⟩) = true := by
  unfold riskCore at h
  simp only [] at h
  split at h
  · split at h
    · split at h
      · obtain ⟨lv, hlv, he⟩ := Option.map_eq_some'.mp h
        injection he with h1 h2
        subst h1
        cases hA : ciPrefixTake "LOW".data ((((cs.drop 7).drop (runLen isJsWs (cs.drop 7))).drop 5).drop
            (runLen isJsWs (((cs.drop 7).drop (runLen isJsWs (cs.drop 7))).drop 5))) with
        | some q =>
          simp only [hA] at hlv
          obtain rfl := Option.some_inj.mp hlv
          have hm := ciPrefixTake_toLower _ _ q.1 q.2 hA
          have h2 : jsToLower ⟨q.1⟩ = "low" := by
            show (⟨q.1.map jsToLowerChar⟩ : String) = "low"
            rw [hm]
            decide
          rw [h2]
          decide
        | none =>
          simp only [hA] at hlv
          cases hB : ciPrefixTake "MEDIUM".data ((((cs.drop 7).drop (runLen isJsWs (cs.drop 7))).drop 5).drop
              (runLen isJsWs (((cs.drop 7).drop (runLen isJsWs (cs.drop 7))).drop 5))) with
          | some q =>
            simp only [hB] at hlv
            obtain rfl := Option.some_inj.mp hlv
            have hm := ciPrefixTake_toLower _ _ q.1 q.2 hB
            have h2 : jsToLower ⟨q.1⟩ = "medium" := by
              show (⟨q.1.map jsToLowerChar⟩ : String) = "medium"
              rw [hm]
              decide
            rw [h2]
            decide
          | none =>
            simp only [hB] at hlv
            cases hC : ciPrefixTake "HIGH".data ((((cs.drop 7).drop (runLen isJsWs (cs.drop 7))).drop 5).drop
                (runLen isJsWs (((cs.drop 7).drop (runLen isJsWs (cs.drop 7))).drop 5))) with
            | some q =>
              simp only [hC] at hlv
              obtain rfl := Option.some_inj.mp hlv
              have hm := ciPrefixTake_toLower _ _ q.1 q.2 hC
              have h2 : jsToLower ⟨q.1⟩ = "high" := by
                show (⟨q.1.map jsToLowerChar⟩ : String) = "high"
                rw [hm]
                decide
              rw [h2]
              decide
            | none =>
              simp only [hC] at hlv
              obtain ⟨q, hq, he2⟩ := Option.map_eq_some'.mp hlv
              subst he2
              have hm := ciPrefixTake_toLower _ _ q.1 q.2 hq
              have h2 : jsToLower ⟨q.1⟩ = "critical" := by
                show (⟨q.1.map jsToLowerChar⟩ : String) = "critical"
                rw [hm]
                decide
              rw [h2]
              decide
      · exact Option.noConfusion h
    · exact Option.noConfusion h
  · exact Option.noConfusion h

/-- Any explicit risk token found anywhere in the text lowercases into the
closed risk set. -/
theorem riskFind_valid : ∀ (cs lvl : List Char), riskFind cs = some lvl →
    validRisks.contains (jsToLower ⟨lvl⟩) = true := by
  intro cs
  induction cs with
  | nil => intro lvl h; exact absurd h (by simp [riskFind])
  | cons c t ih =>
    intro lvl h
    simp only [riskFind] at h
    cases hA : riskCore (c :: t) with
    | some pr =>
      obtain ⟨lv, n⟩ := pr
      simp only [hA] at h
      obtain rfl := Option.some_inj.mp h
      exact riskCore_valid (c :: t) lv n hA
    | none =>
      simp only [hA] at h
      exact ih lvl h

/-- The severity captured by the bracket alternation lowercases into the
closed severity set. -/
theorem sevAltTake_valid (cs sev rest : List Char) (h : sevAltTake cs = some (sev, rest)) :
    validSeverities.contains (jsToLower ⟨sev⟩) = true := by
  unfold sevAltTake at h
  cases hA : ciPrefixTake "SECURITY".data cs with
  | some q =>
    obtain ⟨cap, r2⟩ := q
    simp only [hA, Option.some_inj] at h
    injection h with h1 h2
    subst h1
    have hm := ciPrefixTake_toLower _ _ cap r2 hA
    have h2 : jsToLower ⟨cap⟩ = "security" := by
      show (⟨cap.map jsToLowerChar⟩ : String) = "security"
      rw [hm]
      decide
    rw [h2]
    decide
  | none =>
    simp only [hA] at h
    cases hB : ciPrefixTake "CRITICAL".data cs with
    | some q =>
      obtain ⟨cap, r2⟩ := q
      simp only [hB, Option.some_inj] at h
      injection h with h1 h2
      subst h1
      have hm := ciPrefixTake_toLower _ _ cap r2 hB
      have h2 : jsToLower ⟨cap⟩ = "critical" := by
        show (⟨cap.map jsToLowerChar⟩ : String) = "critical"
        rw [hm]
        decide
      rw [h2]
      decide
    | none =>
      simp only [hB] at h
      cases hC : ciPrefixTake "HIGH".data cs with
      | some q =>
        obtain ⟨cap, r2⟩ := q
        simp only [hC, Option.some_inj] at h
        injection h with h1 h2
        subst h1
        have hm := ciPrefixTake_toLower _ _ cap r2 hC
        have h2 : jsToLower ⟨cap⟩ = "high" := by
          show (⟨cap.map jsToLowerChar⟩ : String) = "high"
          rw [hm]
          decide
        rw [h2]
        decide
      | none =>
        simp only [hC] at h
        cases hD : ciPrefixTake "MEDIUM".data cs with
        | some q =>
          obtain ⟨cap, r2⟩ := q
          simp only [hD, Option.some_inj] at h
          injection h with h1 h2
          subst h1
          have hm := ciPrefixTake_toLower _ _ cap r2 hD
          have h2 : jsToLower ⟨cap⟩ = "medium" := by
            show (⟨cap.map jsToLowerChar⟩ : String) = "medium"
            rw [hm]
            decide
          rw [h2]
          decide
        | none =>
          simp only [hD] at h
          cases hE : ciPrefixTake "LOW".data cs with
          | some q =>
            obtain ⟨cap, r2⟩ := q
            simp only [hE, Option.some_inj] at h
            injection h with h1 h2
            subst h1
            have hm := ciPrefixTake_toLower _ _ cap r2 hE
            have h2 : jsToLower ⟨cap⟩ = "low" := by
              show (⟨cap.map jsToLowerChar⟩ : String) = "low"
              rw [hm]
              decide
            rw [h2]
            decide
          | none =>
            simp only [hE] at h
            have hm := ciPrefixTake_toLower "INFO".data cs sev rest h
            have h2 : jsToLower ⟨sev⟩ = "info" := by
              show (⟨sev.map jsToLowerChar⟩ : String) = "info"
              rw [hm]
              decide
            rw [h2]
            decide

/-- A marker match carries a severity that lowercases into the closed set. -/
theorem matchMarkerAt_sev (cs : List Char) (m : MarkerM) (h : matchMarkerAt cs = some m) :
    validSeverities.contains (jsToLower ⟨m.sev⟩) = true := by
  unfold matchMarkerAt at h
  simp only [] at h
  split at h
  · split at h
    · split at h
      · rename_i x1 cs2 heqDrop x2 sev cs4 heqS x3 title f l rest heqT
        obtain rfl := Option.some_inj.mp h
        exact sevAltTake_valid cs2 sev _ heqS
      · exact Option.noConfusion h
    · exact Option.noConfusion h
  · exact Option.noConfusion h

/-- The marker search returns matches whose severity lowercases into the
closed set. -/
theorem findMarkerFrom_sev (input : List Char) : ∀ (fuel pos p : Nat) (m : MarkerM),
    findMarkerFrom input fuel pos = some (p, m) →
    validSeverities.contains (jsToLower ⟨m.sev⟩) = true := by
  intro fuel
  induction fuel with
  | zero => intro pos p m h; exact absurd h (by simp [findMarkerFrom])
  | succ f ih =>
    intro pos p m h
    simp only [findMarkerFrom] at h
    cases hM : matchMarkerAt (input.drop pos) with
    | some mm =>
      simp only [hM, Option.some_inj] at h
      injection h with h1 h2
      subst h2
      exact matchMarkerAt_sev _ _ hM
    | none =>
      simp only [hM] at h
      split at h
      · exact ih (pos + 1) p m h
      · exact Option.noConfusion h

/-- Every finding collected by the v1.1.x marker loop has a severity in the
closed set. -/
theorem v11Loop_sev (input : List Char) : ∀ (fuel pos : Nat) (i : Finding),
    i ∈ v11Loop input fuel pos → validSeverities.contains i.severity = true := by
  intro fuel
  induction fuel with
  | zero => intro pos i hi; exact absurd hi (by simp [v11Loop])
  | succ f ih =>
    intro pos i hi
    simp only [v11Loop] at hi
    cases hF : findMarkerFrom input (input.length + 1 - pos) pos with
    | none =>
      simp only [hF] at hi
      exact absurd hi (List.not_mem_nil _)
    | some pr =>
      obtain ⟨p, m⟩ := pr
      simp only [hF] at hi
      rcases List.mem_cons.mp hi with rfl | hi2
      · show validSeverities.contains (v11Finding input p m).severity = true
        have hsev : (v11Finding input p m).severity = jsToLower ⟨m.sev⟩ := rfl
        rw [hsev]
        exact findMarkerFrom_sev input _ _ _ _ hF
      · exact ih (p + m.len) i hi2

/-- The specification's derivation rule always lands in the closed risk
set. -/
theorem deriveRisk_valid (l : List Finding) : validRisks.contains (deriveRiskSpec l) = true := by
  unfold deriveRiskSpec
  split
  · decide
  · split
    · decide
    · split <;> decide

/-- The v1.1.x marker extractor returns a Review with risk and severities in
the closed sets for every input. -/
theorem v11_valid (text : String) : ReviewValid (extractIssuesFromTextV11 text) := by
  constructor
  · cases hR : riskFind text.data with
    | some lvl =>
      have he : (extractIssuesFromTextV11 text).overall_risk = jsToLower ⟨lvl⟩ := by
        unfold extractIssuesFromTextV11
        simp only [hR]
      rw [he]
      exact riskFind_valid text.data lvl hR
    | none =>
      unfold extractIssuesFromTextV11
      simp only [hR]
      rw [risk_if_len]
      exact deriveRisk_valid _
  · intro i hi
    exact v11Loop_sev text.data _ _ i (show i ∈ v11Loop text.data (text.data.length + 1) 0 from hi)

/-- C2, counterexample: on the response text with a long-s character before
ecurity, the interpretation pipeline returns a finding whose severity is the
string with the long s, which is outside the closed severity set — the
pattern extractor admits any capture whose JavaScript uppercasing lands in
the indicator list, and uppercasing maps the long s to S while lowercasing
leaves it fixed. -/
theorem c2_counterexample :
    (interpretResponse c2Input).issues.map (fun i => i.severity) = ["ſecurity"] ∧
    validSeverities.contains "ſecurity" = false := by
  decide

/-- C2, amended: restricted to ASCII response texts the v1.0.x
interpretation pipeline always returns risks and severities in the closed
sets, and the v1.1.x marker extractor does so for every input without
restriction. -/
theorem c2_amended_closed_sets :
    (∀ text : String, (∀ c ∈ text.data, c.toNat < 128) →
      ReviewValid (interpretResponse text)) ∧
    (∀ text : String, ReviewValid (extractIssuesFromTextV11 text)) :=
  ⟨interp_valid, v11_valid⟩

theorem c2_amended_closed_sets_witness :
    (∀ c ∈ ("x [HIGH] y" : String).data, c.toNat < 128) ∧
    ReviewValid (interpretResponse "x [HIGH] y") ∧
    ReviewValid (extractIssuesFromTextV11 "abc") :=
  ⟨by decide, c2_amended_closed_sets.1 "x [HIGH] y" (by decide),
    c2_amended_closed_sets.2 "abc"⟩

/-! ## Claim C4: exact extraction of well-formed rendered markers -/

/-- A greedy run passes over a block that satisfies the class. -/
theorem takeRun_append_of_all (p : Char → Bool) :
    ∀ (xs ys : List Char), (∀ c ∈ xs, p c = true) →
      takeRun p (xs ++ ys) = xs ++ takeRun p ys := by
  intro xs
  induction xs with
  | nil => intro ys _; rfl
  | cons c t ih =>
    intro ys h
    simp only [List.cons_append, takeRun]
    rw [if_pos (h c (List.mem_cons_self _ _))]
    exact congrArg (fun l => c :: l) (ih ys (fun d hd => h d (List.mem_cons_of_mem _ hd)))

/-- A greedy run stops at a character outside the class. -/
theorem takeRun_stop (p : Char → Bool) (c : Char) (t : List Char) (h : p c = false) :
    takeRun p (c :: t) = [] := by
  simp [takeRun, h]

/-- The run over a full block followed by a stopper is exactly the block. -/
theorem takeRun_exact (p : Char → Bool) (xs : List Char) (h : ∀ c ∈ xs, p c = true)
    (y : Char) (hy : p y = false) (t : List Char) :
    takeRun p (xs ++ y :: t) = xs := by
  rw [takeRun_append_of_all p xs _ h, takeRun_stop p y t hy, List.append_nil]

/-- The remainder after a run skips a block inside the class. -/
theorem dropRun_append_of_all (p : Char → Bool) :
    ∀ (xs ys : List Char), (∀ c ∈ xs, p c = true) →
      dropRun p (xs ++ ys) = dropRun p ys := by
  intro xs
  induction xs with
  | nil => intro ys _; rfl
  | cons c t ih =>
    intro ys h
    simp only [List.cons_append, dropRun]
    rw [if_pos (h c (List.mem_cons_self _ _))]
    exact ih ys (fun d hd => h d (List.mem_cons_of_mem _ hd))

/-- The remainder after a run is the whole list when its head is outside the
class. -/
theorem dropRun_stop (p : Char → Bool) (c : Char) (t : List Char) (h : p c = false) :
    dropRun p (c :: t) = c :: t := by
  simp [dropRun, h]

/-- Whitespace characters are not alphanumeric. -/
theorem ws_not_alphanum (c : Char) (h : isJsWs c = true) : c.isAlphanum = false := by
  simp only [isJsWs, Bool.or_eq_true, decide_eq_true_eq] at h
  rcases h with ((((rfl | rfl) | rfl) | rfl) | rfl) | rfl <;> decide

/-- Alphanumeric characters are not whitespace. -/
theorem alphanum_not_ws (c : Char) (h : c.isAlphanum = true) : isJsWs c = false := by
  cases hw : isJsWs c
  · rfl
  · rw [ws_not_alphanum c hw] at h
    exact absurd h (by decide)

/-- Title characters are never a star. -/
theorem titleChar_ne_star (c : Char) (h : isTitleChar c = true) : c ≠ '*' := by
  intro he; subst he; exact absurd h (by decide)

/-- Title characters are never an underscore. -/
theorem titleChar_ne_us (c : Char) (h : isTitleChar c = true) : c ≠ '_' := by
  intro he; subst he; exact absurd h (by decide)

/-- Title characters are never a newline. -/
theorem titleChar_ne_nl (c : Char) (h : isTitleChar c = true) : c ≠ '\n' := by
  intro he; subst he; exact absurd h (by decide)

/-- A non-whitespace title character is alphanumeric. -/
theorem titleChar_alphanum (c : Char) (h : isTitleChar c = true) (hw : isJsWs c = false) :
    c.isAlphanum = true := by
  simp only [isTitleChar, Bool.or_eq_true, decide_eq_true_eq] at h
  rcases h with h | rfl
  · exact h
  · exact absurd hw (by decide)

/-- Segment characters are not whitespace. -/
theorem segChar_not_ws (c : Char) (h : isSegChar c = true) : isJsWs c = false := by
  cases hw : isJsWs c
  · rfl
  · simp only [isJsWs, Bool.or_eq_true, decide_eq_true_eq] at hw
    rcases hw with ((((rfl | rfl) | rfl) | rfl) | rfl) | rfl <;> exact absurd h (by decide)

/-- Segment characters lie in the file-part class. -/
theorem segChar_fileChar (c : Char) (h : isSegChar c = true) : isFileChar c = true := by
  unfold isFileChar
  have hws := segChar_not_ws c h
  have hc1 : c ≠ ':' := by intro he; subst he; exact absurd h (by decide)
  have hc2 : c ≠ '/' := by intro he; subst he; exact absurd h (by decide)
  simp [hws, hc1, hc2]

/-- The rendered digit list of a line number is nonempty, all decimal, and
parses back to the number. -/
theorem natDigitsF_spec : ∀ (fuel n : Nat), n < fuel →
    natDigitsF fuel n ≠ [] ∧ (∀ c ∈ natDigitsF fuel n, isDigitB c = true) ∧
    (natDigitsF fuel n).foldl (fun a c => a * 10 + (c.toNat - '0'.toNat)) 0 = n := by
  intro fuel
  induction fuel with
  | zero => intro n h; omega
  | succ f ih =>
    intro n h
    by_cases h10 : n < 10
    · simp only [natDigitsF, if_pos h10]
      refine ⟨by simp, ?_, ?_⟩
      · intro c hc
        obtain rfl := List.mem_singleton.mp hc
        unfold digitChar
        interval_cases n <;> decide
      · simp only [List.foldl_cons, List.foldl_nil]
        have hd : (digitChar n).toNat = 48 + n := char_ofNat_toNat_of_valid _ (by omega)
        have h48 : '0'.toNat = 48 := rfl
        rw [hd, h48]
        omega
    · simp only [natDigitsF, if_neg h10]
      have hlt : n / 10 < f := by omega
      obtain ⟨hne, hdig, hfold⟩ := ih (n / 10) hlt
      refine ⟨by simp, ?_, ?_⟩
      · intro c hc
        rcases List.mem_append.mp hc with hc1 | hc1
        · exact hdig c hc1
        · obtain rfl := List.mem_singleton.mp hc1
          unfold digitChar
          have h9 : n % 10 < 10 := Nat.mod_lt _ (by omega)
          set k := n % 10 with hk
          interval_cases k <;> decide
      · rw [List.foldl_append]
        simp only [List.foldl_cons, List.foldl_nil]
        rw [hfold]
        have hd : (digitChar (n % 10)).toNat = 48 + n % 10 :=
          char_ofNat_toNat_of_valid _ (by omega)
        have h48 : '0'.toNat = 48 := rfl
        rw [hd, h48]
        omega

theorem natDigits_ne_nil (n : Nat) : natDigits n ≠ [] :=
  (natDigitsF_spec (n + 1) n (by omega)).1

theorem natDigits_digits (n : Nat) : ∀ c ∈ natDigits n, isDigitB c = true :=
  (natDigitsF_spec (n + 1) n (by omega)).2.1

/-- parseInt undoes the decimal rendering. -/
theorem parseInt_natDigits (n : Nat) : parseIntDigits ⟨natDigits n⟩ = (n : Int) := by
  unfold parseIntDigits
  exact congrArg (fun (k : Nat) => (k : Int)) (natDigitsF_spec (n + 1) n (by omega)).2.2

/-- The severity alternation matches a rendered severity token exactly. -/
theorem sevAltTake_render (t : SevTok) (tail : List Char) :
    sevAltTake (t.upper.data ++ tail) = some (t.upper.data, tail) := by
  cases t <;> rfl

/-- Lowercasing a rendered severity token gives the lowercase token. -/
theorem sev_lower_eq (t : SevTok) : jsToLower t.upper = t.lower := by
  cases t <;> decide

/-- The slash join splits into the first segment and the slash-prefixed
tail. -/
theorem joinSlash_data : ∀ (s : String) (ss : List String),
    (joinSlash (s :: ss)).data = s.data ++ segsTail ss := by
  intro s ss
  induction ss generalizing s with
  | nil => simp [joinSlash, segsTail]
  | cons s2 ss2 ih =>
    rw [show joinSlash (s :: s2 :: ss2) = s ++ "/" ++ joinSlash (s2 :: ss2) from rfl]
    simp only [String.data_append, ih s2, segsTail]
    simp [List.append_assoc]

/-- The tail rendering is at least one character per segment. -/
theorem segsTail_len : ∀ (ss : List String), ss.length ≤ (segsTail ss).length := by
  intro ss
  induction ss with
  | nil => simp [segsTail]
  | cons s ss' ih =>
    simp only [segsTail, List.length_cons, List.length_append]
    omega

/-- A descending-length search whose first try succeeds returns that
result. -/
theorem tryLenDesc1_first {α : Type} (f : Nat → Option α) (n : Nat) (r : α)
    (h : f (n + 1) = some r) : tryLenDesc1 f (n + 1) = some r := by
  simp [tryLenDesc1, h]

/-- The line tail of the marker pattern on a rendered colon-digits-newline
suffix. -/
theorem lineCont_render (acc D rest : List Char) (hD : D ≠ [])
    (hdig : ∀ c ∈ D, isDigitB c = true) :
    lineCont acc (':' :: (D ++ '\n' :: rest)) = some (acc, some D, rest) := by
  have h1 : takeRun isDigitB (D ++ '\n' :: rest) = D :=
    takeRun_exact _ _ hdig _ (by decide) _
  have h2 : (D ++ '\n' :: rest).drop D.length = '\n' :: rest := List.drop_left D _
  unfold lineCont
  simp only [h1, h2, lineEndTake]
  rw [if_pos (show D.length ≥ 1 from List.length_pos.mpr hD)]

/-- The extension tail declines on a rendered colon-digits suffix and falls
through to the line tail. -/
theorem extCont_render (acc D rest : List Char) (hD : D ≠ [])
    (hdig : ∀ c ∈ D, isDigitB c = true) :
    extCont acc (':' :: (D ++ '\n' :: rest)) = some (acc, some D, rest) := by
  unfold extCont extCont.extCont2
  simp only []
  exact lineCont_render acc D rest hD hdig

/-- The segment star consumes exactly the rendered slash-joined tail
segments and then the line tail. -/
theorem segsCont_render : ∀ (ss : List String) (fuel : Nat) (acc D rest : List Char),
    ss.length ≤ fuel → (∀ s ∈ ss, wfSegB s.data = true) →
    D ≠ [] → (∀ c ∈ D, isDigitB c = true) →
    segsCont fuel acc (segsTail ss ++ ':' :: (D ++ '\n' :: rest)) =
      some (acc ++ segsTail ss, some D, rest) := by
  intro ss
  induction ss with
  | nil =>
    intro fuel acc D rest _ _ hD hdig
    cases fuel with
    | zero =>
      show extCont acc (':' :: (D ++ '\n' :: rest)) = some (acc ++ [], some D, rest)
      rw [List.append_nil]
      exact extCont_render acc D rest hD hdig
    | succ k =>
      show segsCont (k + 1) acc (':' :: (D ++ '\n' :: rest)) = some (acc ++ [], some D, rest)
      unfold segsCont
      simp only []
      rw [List.append_nil]
      exact extCont_render acc D rest hD hdig
  | cons s ss' ih =>
    intro fuel acc D rest hf hwf hD hdig
    cases fuel with
    | zero => simp at hf
    | succ k =>
      have hwfs := hwf s (List.mem_cons_self _ _)
      have hsne : s.data ≠ [] := by
        intro he
        rw [wfSegB, he] at hwfs
        exact absurd hwfs (by decide)
      have hallseg : ∀ c ∈ s.data, isSegChar c = true := by
        intro c hc
        simp only [wfSegB, Bool.and_eq_true] at hwfs
        exact List.all_eq_true.mp hwfs.2 c hc
      have hallfile : ∀ c ∈ s.data, isFileChar c = true :=
        fun c hc => segChar_fileChar c (hallseg c hc)
      obtain ⟨y, t0, hyt, hy⟩ :
          ∃ y t0, segsTail ss' ++ ':' :: (D ++ '\n' :: rest) = y :: t0 ∧
            isFileChar y = false := by
        cases ss' with
        | nil => exact ⟨':', D ++ '\n' :: rest, rfl, by decide⟩
        | cons s2 ss2 => exact ⟨'/', _, rfl, by decide⟩
      have hinp : segsTail (s :: ss') ++ ':' :: (D ++ '\n' :: rest) =
          '/' :: (s.data ++ (segsTail ss' ++ ':' :: (D ++ '\n' :: rest))) := by
        simp [segsTail, List.append_assoc]
      rw [hinp]
      unfold segsCont
      simp only []
      have hrun : takeRun isFileChar (s.data ++ (segsTail ss' ++ ':' :: (D ++ '\n' :: rest))) =
          s.data := by
        rw [hyt]
        exact takeRun_exact _ _ hallfile _ hy _
      rw [hrun]
      obtain ⟨n0, hn0⟩ : ∃ n0, s.data.length = n0 + 1 := by
        cases hs : s.data with
        | nil => exact absurd hs hsne
        | cons a b => exact ⟨b.length, by simp⟩
      have hfirst : segsCont k (acc ++ '/' :: List.take (n0 + 1) s.data)
          (List.drop (n0 + 1) (s.data ++ (segsTail ss' ++ ':' :: (D ++ '\n' :: rest)))) =
          some (acc ++ segsTail (s :: ss'), some D, rest) := by
        rw [← hn0, List.take_length, List.drop_left]
        rw [ih k (acc ++ '/' :: s.data) D rest (by simp at hf; omega)
          (fun x hx => hwf x (List.mem_cons_of_mem _ hx)) hD hdig]
        simp [segsTail, List.append_assoc]
      rw [hn0]
      rw [tryLenDesc1_first _ n0 _ hfirst]

/-- The whole file group on a rendered slash-joined path followed by the
colon-digits-newline tail. -/
theorem fileMatch_render (s : String) (ss : List String) (D rest : List Char)
    (hwf : ∀ x ∈ s :: ss, wfSegB x.data = true) (hD : D ≠ [])
    (hdig : ∀ c ∈ D, isDigitB c = true) :
    fileMatch ((joinSlash (s :: ss)).data ++ ':' :: (D ++ '\n' :: rest)) =
      some ((joinSlash (s :: ss)).data, some D, rest) := by
  have hwfs := hwf s (List.mem_cons_self _ _)
  have hsne : s.data ≠ [] := by
    intro he
    rw [wfSegB, he] at hwfs
    exact absurd hwfs (by decide)
  have hallfile : ∀ c ∈ s.data, isFileChar c = true := by
    intro c hc
    simp only [wfSegB, Bool.and_eq_true] at hwfs
    exact segChar_fileChar c (List.all_eq_true.mp hwfs.2 c hc)
  obtain ⟨y, t0, hyt, hy⟩ :
      ∃ y t0, segsTail ss ++ ':' :: (D ++ '\n' :: rest) = y :: t0 ∧
        isFileChar y = false := by
    cases ss with
    | nil => exact ⟨':', D ++ '\n' :: rest, rfl, by decide⟩
    | cons s2 ss2 => exact ⟨'/', _, rfl, by decide⟩
  rw [joinSlash_data, List.append_assoc]
  unfold fileMatch
  simp only []
  have hrun : takeRun isFileChar (s.data ++ (segsTail ss ++ ':' :: (D ++ '\n' :: rest))) =
      s.data := by
    rw [hyt]
    exact takeRun_exact _ _ hallfile _ hy _
  rw [hrun]
  obtain ⟨n0, hn0⟩ : ∃ n0, s.data.length = n0 + 1 := by
    cases hs : s.data with
    | nil => exact absurd hs hsne
    | cons a b => exact ⟨b.length, by simp⟩
  have hfuel : ss.length ≤ (s.data ++ (segsTail ss ++ ':' :: (D ++ '\n' :: rest))).length := by
    have := segsTail_len ss
    simp only [List.length_append, List.length_cons]
    omega
  have hfirst : segsCont (s.data ++ (segsTail ss ++ ':' :: (D ++ '\n' :: rest))).length
      (List.take (n0 + 1) s.data)
      (List.drop (n0 + 1) (s.data ++ (segsTail ss ++ ':' :: (D ++ '\n' :: rest)))) =
      some (s.data ++ segsTail ss, some D, rest) := by
    rw [← hn0, List.take_length, List.drop_left]
    rw [segsCont_render ss _ s.data D rest hfuel
      (fun x hx => hwf x (List.mem_cons_of_mem _ hx)) hD hdig]
  rw [hn0]
  rw [tryLenDesc1_first _ n0 _ hfirst]

/-- Skipping whitespace inside a well-formed title suffix lands on an
alphanumeric character. -/
theorem dropRun_title : ∀ (tr : List Char), tr.all isTitleChar = true →
    (match tr.getLast? with | some d => d.isAlphanum | none => false) = true →
    ∀ tail : List Char, ∃ d r, dropRun isJsWs (tr ++ tail) = d :: r ∧ d.isAlphanum = true := by
  intro tr
  induction tr with
  | nil => intro _ hl tail; simp at hl
  | cons c t ih =>
    intro hall hl tail
    by_cases hw : isJsWs c = true
    · cases t with
      | nil =>
        simp only [List.getLast?_singleton] at hl
        rw [ws_not_alphanum c hw] at hl
        exact absurd hl (by decide)
      | cons c2 t2 =>
        have hl' : (match (c2 :: t2).getLast? with
            | some d => d.isAlphanum | none => false) = true := by
          rw [List.getLast?_cons_cons] at hl
          exact hl
        have hall' : (c2 :: t2).all isTitleChar = true := by
          simp only [List.all_cons, Bool.and_eq_true] at hall
          simp only [List.all_cons, Bool.and_eq_true]
          exact hall.2
        rw [show dropRun isJsWs ((c :: c2 :: t2) ++ tail) =
            dropRun isJsWs ((c2 :: t2) ++ tail) from by simp [dropRun, hw]]
        exact ih hall' hl' tail
    · have hwf : isJsWs c = false := by
        cases hx : isJsWs c
        · rfl
        · exact absurd hx hw
      refine ⟨c, t ++ tail, by simp [dropRun, hwf], ?_⟩
      exact titleChar_alphanum c
        (by simp only [List.all_cons, Bool.and_eq_true] at hall; exact hall.1) hwf

/-- The dash-file group never fires inside a well-formed title suffix. -/
theorem groupFile_title_none (tr : List Char) (htr : tr.all isTitleChar = true)
    (hl : (match tr.getLast? with | some d => d.isAlphanum | none => false) = true)
    (tail : List Char) : groupFile (tr ++ tail) = none := by
  unfold groupFile
  obtain ⟨d, r, hdr, hdal⟩ := dropRun_title tr htr hl tail
  rw [hdr]
  split
  · rename_i b heq
    exfalso
    injection heq with h1 h2
    rw [h1] at hdal
    exact absurd hdal (by decide)
  · rfl

/-- The newline-or-end closer never fires inside a nonempty title suffix. -/
theorem lineEndTake_title_none (tr tail : List Char) (htr : tr.all isTitleChar = true)
    (hne : tr ≠ []) : lineEndTake (tr ++ tail) = none := by
  cases tr with
  | nil => exact absurd rfl hne
  | cons c t =>
    have hc : c ≠ '\n' := titleChar_ne_nl c
      (by simp only [List.all_cons, Bool.and_eq_true] at htr; exact htr.1)
    show lineEndTake (c :: (t ++ tail)) = none
    unfold lineEndTake
    split
    · rename_i rest heq
      exfalso
      injection heq with h1 _
      exact hc h1
    · rename_i heq
      exact absurd heq (by simp)
    · rfl

/-- The marker continuation never fires inside a well-formed title suffix:
the lazy title cannot stop early. -/
theorem contAfterTitle_mid (tr tail : List Char) (htr : tr.all isTitleChar = true)
    (hl : (match tr.getLast? with | some d => d.isAlphanum | none => false) = true)
    (hne : tr ≠ []) : contAfterTitle (tr ++ tail) = none := by
  unfold contAfterTitle
  rw [groupFile_title_none tr htr hl tail, lineEndTake_title_none tr tail htr hne]

/-- The lazy title consumes exactly a well-formed title block when the
continuation succeeds right after it. -/
theorem titleLoop_render : ∀ (tr acc tail : List Char) (f l : Option (List Char))
    (r : List Char), tr ≠ [] → tr.all isTitleChar = true →
    (match tr.getLast? with | some d => d.isAlphanum | none => false) = true →
    contAfterTitle tail = some (f, l, r) →
    titleLoop acc (tr ++ tail) = some (acc ++ tr, f, l, r) := by
  intro tr
  induction tr with
  | nil => intro acc tail f l r hne _ _ _; exact absurd rfl hne
  | cons c t ih =>
    intro acc tail f l r _ hall hl hcont
    have hc : isTitleChar c = true := by
      simp only [List.all_cons, Bool.and_eq_true] at hall
      exact hall.1
    have hcn : c ≠ '\n' := titleChar_ne_nl c hc
    show titleLoop acc (c :: (t ++ tail)) = some (acc ++ c :: t, f, l, r)
    unfold titleLoop
    rw [if_neg hcn]
    cases t with
    | nil =>
      simp only [List.nil_append]
      rw [hcont]
    | cons c2 t2 =>
      have hl' : (match (c2 :: t2).getLast? with
          | some d => d.isAlphanum | none => false) = true := by
        rw [List.getLast?_cons_cons] at hl
        exact hl
      have hall' : (c2 :: t2).all isTitleChar = true := by
        simp only [List.all_cons, Bool.and_eq_true] at hall
        simp only [List.all_cons, Bool.and_eq_true]
        exact hall.2
      rw [contAfterTitle_mid (c2 :: t2) tail hall' hl' (by simp)]
      rw [ih (acc ++ [c]) tail f l r (by simp) hall' hl' hcont]
      simp

/-- The continuation after the title on a rendered dash-file-line tail. -/
theorem contAfterTitle_render (s : String) (ss : List String) (D rest : List Char)
    (hwf : ∀ x ∈ s :: ss, wfSegB x.data = true) (hD : D ≠ [])
    (hdig : ∀ c ∈ D, isDigitB c = true) :
    contAfterTitle (' ' :: '-' :: ' ' :: ((joinSlash (s :: ss)).data ++ ':' ::
        (D ++ '\n' :: rest))) =
      some (some (joinSlash (s :: ss)).data, some D, rest) := by
  have hwfs := hwf s (List.mem_cons_self _ _)
  have hsne : s.data ≠ [] := by
    intro he
    rw [wfSegB, he] at hwfs
    exact absurd hwfs (by decide)
  obtain ⟨c0, t0, hs0⟩ : ∃ c0 t0, s.data = c0 :: t0 := by
    cases hs : s.data with
    | nil => exact absurd hs hsne
    | cons a b => exact ⟨a, b, rfl⟩
  have hc0 : isSegChar c0 = true := by
    simp only [wfSegB, Bool.and_eq_true] at hwfs
    exact List.all_eq_true.mp hwfs.2 c0 (by rw [hs0]; exact List.mem_cons_self _ _)
  have hgf : groupFile (' ' :: '-' :: ' ' :: ((joinSlash (s :: ss)).data ++ ':' ::
      (D ++ '\n' :: rest))) =
      some ((joinSlash (s :: ss)).data, some D, rest) := by
    unfold groupFile
    have hd1 : dropRun isJsWs (' ' :: '-' :: ' ' :: ((joinSlash (s :: ss)).data ++ ':' ::
        (D ++ '\n' :: rest))) = '-' :: ' ' :: ((joinSlash (s :: ss)).data ++ ':' ::
        (D ++ '\n' :: rest)) := by
      simp [dropRun, isJsWs]
    have hd2 : dropRun isJsWs (' ' :: ((joinSlash (s :: ss)).data ++ ':' ::
        (D ++ '\n' :: rest))) = (joinSlash (s :: ss)).data ++ ':' :: (D ++ '\n' :: rest) := by
      rw [joinSlash_data, hs0]
      simp only [List.cons_append, dropRun]
      rw [if_pos (by decide), if_neg (by rw [segChar_not_ws c0 hc0]; simp)]
      simp [List.append_assoc]
    rw [hd1]
    show fileMatch (dropRun isJsWs (' ' :: ((joinSlash (s :: ss)).data ++ ':' ::
        (D ++ '\n' :: rest)))) = some ((joinSlash (s :: ss)).data, some D, rest)
    rw [hd2]
    exact fileMatch_render s ss D rest hwf hD hdig
  unfold contAfterTitle
  rw [hgf]

/-- The marker pattern matches a rendered well-formed marker exactly,
capturing its severity token, title, slash-joined path and digit line, and
consuming the whole rendered line. -/
theorem matchMarker_render (m : SpecMarker) (hwf : wfMarkerB m = true)
    (s : String) (ss : List String) (hsegs : m.segs = s :: ss) (rest : List Char) :
    matchMarkerAt ((renderMarker m).data ++ rest) =
      some { sev := m.sev.upper.data, title := m.title.data,
             file := some (joinSlash (s :: ss)).data, line := some (natDigits m.line),
             len := (renderMarker m).data.length } := by
  simp only [wfMarkerB, Bool.and_eq_true] at hwf
  obtain ⟨⟨hT, hSE⟩, hSA⟩ := hwf
  have hwfsegs : ∀ x ∈ s :: ss, wfSegB x.data = true := by
    intro x hx
    exact List.all_eq_true.mp hSA x (by rw [hsegs]; exact hx)
  simp only [wfTitleB, Bool.and_eq_true] at hT
  obtain ⟨⟨⟨hTne, hTall⟩, hThead⟩, hTlast⟩ := hT
  obtain ⟨c0, t0, hT0⟩ : ∃ c0 t0, m.title.data = c0 :: t0 := by
    cases hTd : m.title.data with
    | nil => rw [hTd] at hTne; exact absurd hTne (by decide)
    | cons a b => exact ⟨a, b, rfl⟩
  have hc0an : c0.isAlphanum = true := by
    rw [hT0] at hThead
    simpa using hThead
  have hc0ws : isJsWs c0 = false := alphanum_not_ws c0 hc0an
  have hD : natDigits m.line ≠ [] := natDigits_ne_nil m.line
  have hdig : ∀ c ∈ natDigits m.line, isDigitB c = true := natDigits_digits m.line
  have hdata : (renderMarker m).data ++ rest =
      '[' :: (m.sev.upper.data ++ ']' :: ' ' :: (m.title.data ++ ' ' :: '-' :: ' ' :: ((joinSlash (s :: ss)).data ++ ':' :: (natDigits m.line ++ '\n' :: rest)))) := by
    have e1 : ("[" : String).data = ['['] := rfl
    have e2 : ("] " : String).data = [']', ' '] := rfl
    have e3 : (" - " : String).data = [' ', '-', ' '] := rfl
    have e4 : (":" : String).data = [':'] := rfl
    have e5 : ("\n" : String).data = ['\n'] := rfl
    have e6 : (⟨natDigits m.line⟩ : String).data = natDigits m.line := rfl
    unfold renderMarker
    rw [hsegs]
    simp only [String.data_append, e1, e2, e3, e4, e5, e6]
    simp [List.append_assoc]
  rw [hdata]
  unfold matchMarkerAt
  simp only []
  have hk1 : runLen (fun c => c = '*') ('[' :: (m.sev.upper.data ++ ']' :: ' ' :: (m.title.data ++ ' ' :: '-' :: ' ' :: ((joinSlash (s :: ss)).data ++ ':' :: (natDigits m.line ++ '\n' :: rest))))) = 0 := by
    simp [runLen, takeRun]
  rw [hk1, show min 2 0 = 0 from rfl, List.drop_zero]
  have hsev := sevAltTake_render m.sev (']' :: ' ' :: (m.title.data ++ ' ' :: '-' :: ' ' :: ((joinSlash (s :: ss)).data ++ ':' :: (natDigits m.line ++ '\n' :: rest))))
  simp only [hsev]
  have hts : tryStarsDesc (' ' :: (m.title.data ++ ' ' :: '-' :: ' ' :: ((joinSlash (s :: ss)).data ++ ':' :: (natDigits m.line ++ '\n' :: rest)))) 2 =
      tryWsDesc (' ' :: (m.title.data ++ ' ' :: '-' :: ' ' :: ((joinSlash (s :: ss)).data ++ ':' :: (natDigits m.line ++ '\n' :: rest)))) (runLen isJsWs (' ' :: (m.title.data ++ ' ' :: '-' :: ' ' :: ((joinSlash (s :: ss)).data ++ ':' :: (natDigits m.line ++ '\n' :: rest))))) := by
    have h0 : runLen (fun c => c = '*') (' ' :: (m.title.data ++ ' ' :: '-' :: ' ' :: ((joinSlash (s :: ss)).data ++ ':' :: (natDigits m.line ++ '\n' :: rest)))) = 0 := by
      simp [runLen, takeRun]
    simp [tryStarsDesc, h0]
  have hrunws : runLen isJsWs (' ' :: (m.title.data ++ ' ' :: '-' :: ' ' :: ((joinSlash (s :: ss)).data ++ ':' :: (natDigits m.line ++ '\n' :: rest)))) = 1 := by
    rw [hT0]
    have hws_sp : isJsWs ' ' = true := by decide
    simp [runLen, takeRun, List.cons_append, hws_sp, hc0ws]
  have hcont : contAfterTitle (' ' :: '-' :: ' ' :: ((joinSlash (s :: ss)).data ++ ':' :: (natDigits m.line ++ '\n' :: rest))) =
      some (some (joinSlash (s :: ss)).data, some (natDigits m.line), rest) :=
    contAfterTitle_render s ss (natDigits m.line) rest hwfsegs hD hdig
  have hTL : titleLoop [] (m.title.data ++ (' ' :: '-' :: ' ' :: ((joinSlash (s :: ss)).data ++ ':' :: (natDigits m.line ++ '\n' :: rest)))) =
      some ([] ++ m.title.data, some (joinSlash (s :: ss)).data, some (natDigits m.line), rest) := by
    refine titleLoop_render m.title.data [] _ _ _ _ ?_ hTall hTlast hcont
    rw [hT0]
    simp
  have htw : tryWsDesc (' ' :: (m.title.data ++ ' ' :: '-' :: ' ' :: ((joinSlash (s :: ss)).data ++ ':' :: (natDigits m.line ++ '\n' :: rest)))) 1 =
      some (m.title.data, some (joinSlash (s :: ss)).data, some (natDigits m.line), rest) := by
    unfold tryWsDesc
    simp only [List.drop_succ_cons, List.drop_zero]
    rw [hTL]
    simp
  rw [hts, hrunws, htw]
  have hlen : ('[' :: (m.sev.upper.data ++ ']' :: ' ' :: (m.title.data ++ ' ' :: '-' :: ' ' :: ((joinSlash (s :: ss)).data ++ ':' :: (natDigits m.line ++ '\n' :: rest))))).length =
      (renderMarker m).data.length + rest.length := by
    rw [← hdata, List.length_append]
  rw [hlen]
  simp

/-- Trimming is the identity on a list with non-whitespace ends. -/
theorem jsTrim_id (l : List Char) (hne : l ≠ [])
    (hh : ∀ c, l.head? = some c → isJsWs c = false)
    (hl : ∀ d, l.getLast? = some d → isJsWs d = false) :
    jsTrim ⟨l⟩ = ⟨l⟩ := by
  unfold jsTrim
  cases l with
  | nil => exact absurd rfl hne
  | cons c t =>
    rw [show (⟨c :: t⟩ : String).data = c :: t from rfl]
    rw [dropRun_stop _ _ _ (hh c (List.head?_cons))]
    cases hr : (c :: t).reverse with
    | nil => exact absurd hr (by simp)
    | cons d r =>
      have hd : (c :: t).getLast? = some d := by
        rw [← List.head?_reverse, hr, List.head?_cons]
      rw [dropRun_stop _ _ _ (hl d hd), ← hr, List.reverse_reverse]

/-- Double-star removal is the identity on star-free text. -/
theorem rmDoubleStar_id : ∀ (l : List Char), (∀ c ∈ l, c ≠ '*') → rmDoubleStar l = l := by
  intro l
  induction l with
  | nil => intro _; rfl
  | cons c t ih =>
    intro h
    have hc : c ≠ '*' := h c (List.mem_cons_self _ _)
    cases t with
    | nil =>
      show rmDoubleStar [c] = [c]
      unfold rmDoubleStar
      split
      · rename_i rest heq
        exfalso
        injection heq with _ h2
        exact absurd h2 (by simp)
      · rename_i c' rest heq
        injection heq with h1 h2
        rw [← h1, ← h2]
        rfl
      · rename_i heq
        exact absurd heq (by simp)
    | cons c2 t2 =>
      show rmDoubleStar (c :: c2 :: t2) = c :: c2 :: t2
      unfold rmDoubleStar
      split
      · rename_i rest heq
        exfalso
        injection heq with h1 _
        exact hc h1
      · rename_i c' rest heq
        injection heq with h1 h2
        rw [← h1, ← h2]
        exact congrArg (fun x => c :: x) (ih (fun d hd => h d (List.mem_cons_of_mem _ hd)))
      · rename_i heq
        exact absurd heq (by simp)

/-- The title cleanup of the extractor is the identity on a well-formed
title. -/
theorem title_cleanup (T : List Char) (hall : T.all isTitleChar = true)
    (hhead : (match T.head? with | some c => c.isAlphanum | none => false) = true)
    (hlast : (match T.getLast? with | some d => d.isAlphanum | none => false) = true)
    (hne : T ≠ []) :
    jsTrim ⟨(rmDoubleStar (jsTrim ⟨T⟩).data).filter (fun c => c ≠ '_')⟩ = ⟨T⟩ := by
  have hh : ∀ c, T.head? = some c → isJsWs c = false := by
    intro c hc
    rw [hc] at hhead
    exact alphanum_not_ws c (by simpa using hhead)
  have hl : ∀ d, T.getLast? = some d → isJsWs d = false := by
    intro d hd
    rw [hd] at hlast
    exact alphanum_not_ws d (by simpa using hlast)
  have h1 : jsTrim ⟨T⟩ = ⟨T⟩ := jsTrim_id T hne hh hl
  rw [h1]
  rw [show (⟨T⟩ : String).data = T from rfl]
  rw [rmDoubleStar_id T (fun c hc => titleChar_ne_star c (List.all_eq_true.mp hall c hc))]
  rw [List.filter_eq_self.mpr (fun c hc => by
    simpa using titleChar_ne_us c (List.all_eq_true.mp hall c hc))]
  exact h1

/-- The empty marker match test fails on empty input. -/
theorem matchMarkerAt_nil : matchMarkerAt [] = none := rfl

/-- The marker search hits an immediate match. -/
theorem findMarkerFrom_hit (input : List Char) (fuel pos : Nat) (mm : MarkerM)
    (h : matchMarkerAt (input.drop pos) = some mm) (hf : 1 ≤ fuel) :
    findMarkerFrom input fuel pos = some (pos, mm) := by
  cases fuel with
  | zero => omega
  | succ f => simp [findMarkerFrom, h]

/-- The marker search fails at the end of the input. -/
theorem findMarkerFrom_end (input : List Char) (pos : Nat)
    (hnil : input.drop pos = []) (hle : input.length ≤ pos) :
    findMarkerFrom input (input.length + 1 - pos) pos = none := by
  cases hfuel : input.length + 1 - pos with
  | zero => simp [findMarkerFrom]
  | succ k =>
    simp [findMarkerFrom, hnil, matchMarkerAt_nil, Nat.not_lt.mpr hle]

/-- One rendered marker line always ends in a newline, so it is nonempty. -/
theorem renderMarker_data_split (m : SpecMarker) :
    (renderMarker m).data = ("[" ++ m.sev.upper ++ "] " ++ m.title ++ " - " ++
      joinSlash m.segs ++ ":" ++ (⟨natDigits m.line⟩ : String)).data ++ ['\n'] := rfl

/-- The rendered text of a marker list splits off its first line. -/
theorem renderMarkers_cons (m : SpecMarker) (L : List SpecMarker) :
    (renderMarkers (m :: L)).data = (renderMarker m).data ++ (renderMarkers L).data := rfl

/-- There are at least as many rendered characters as markers. -/
theorem renderMarkers_len : ∀ (L : List SpecMarker),
    L.length ≤ (renderMarkers L).data.length := by
  intro L
  induction L with
  | nil => simp
  | cons m L' ih =>
    rw [renderMarkers_cons, List.length_append]
    have h1 : 1 ≤ (renderMarker m).data.length := by
      rw [renderMarker_data_split, List.length_append]
      simp
    simp only [List.length_cons]
    omega

/-- The marker loop on a rendered well-formed marker list collects exactly
the markers' severities, titles, files and lines, in order. -/
theorem v11Loop_render : ∀ (L : List SpecMarker) (input : List Char) (fuel pos : Nat),
    (∀ m ∈ L, wfMarkerB m = true) →
    input.drop pos = (renderMarkers L).data →
    pos ≤ input.length →
    L.length ≤ fuel →
    (v11Loop input fuel pos).map (fun i => (i.severity, i.title, i.file, i.line)) =
      L.map (fun m => (m.sev.lower, m.title, joinSlash m.segs,
        some ((m.line : Nat) : Int))) := by
  intro L
  induction L with
  | nil =>
    intro input fuel pos _ hdrop hpos _
    have hnil : input.drop pos = [] := by rw [hdrop]; rfl
    have hple : input.length ≤ pos := List.drop_eq_nil_iff.mp hnil
    cases fuel with
    | zero => rfl
    | succ f =>
      show (v11Loop input (f + 1) pos).map _ = []
      unfold v11Loop
      rw [findMarkerFrom_end input pos hnil hple]
      rfl
  | cons mk L' ih =>
    intro input fuel pos hwf hdrop hpos hfuel
    have hwfm := hwf mk (List.mem_cons_self _ _)
    obtain ⟨s, ss, hsegs⟩ : ∃ s ss, mk.segs = s :: ss := by
      cases hS : mk.segs with
      | nil =>
        simp only [wfMarkerB, Bool.and_eq_true] at hwfm
        rw [hS] at hwfm
        exact absurd hwfm.1.2 (by decide)
      | cons a b => exact ⟨a, b, rfl⟩
    have hmatch := matchMarker_render mk hwfm s ss hsegs ((renderMarkers L').data)
    have hdrop' : input.drop pos = (renderMarker mk).data ++ (renderMarkers L').data := by
      rw [hdrop, renderMarkers_cons]
    have hlen1 : 1 ≤ (renderMarker mk).data.length := by
      rw [renderMarker_data_split, List.length_append]
      simp
    have hlens : input.length - pos =
        (renderMarker mk).data.length + (renderMarkers L').data.length := by
      have := congrArg List.length hdrop'
      simpa [List.length_drop, List.length_append] using this
    have hpos_lt : pos < input.length := by omega
    cases fuel with
    | zero => simp at hfuel
    | succ f =>
      show (v11Loop input (f + 1) pos).map _ = _
      unfold v11Loop
      have hfind := findMarkerFrom_hit input (input.length + 1 - pos) pos _
        (by rw [hdrop']; exact hmatch) (by omega)
      rw [hfind]
      simp only [List.map_cons]
      congr 1
      · have h1 : (v11Finding input pos
            { sev := mk.sev.upper.data, title := mk.title.data,
              file := some (joinSlash (s :: ss)).data, line := some (natDigits mk.line),
              len := (renderMarker mk).data.length }).severity = mk.sev.lower := by
          show jsToLower ⟨mk.sev.upper.data⟩ = mk.sev.lower
          exact sev_lower_eq mk.sev
        have hT := hwfm
        simp only [wfMarkerB, wfTitleB, Bool.and_eq_true] at hT
        obtain ⟨⟨⟨⟨⟨hTne, hTall⟩, hThead⟩, hTlast⟩, _⟩, _⟩ := hT
        have hTne' : mk.title.data ≠ [] := by
          intro he
          rw [he] at hTne
          exact absurd hTne (by decide)
        have h2 : (v11Finding input pos
            { sev := mk.sev.upper.data, title := mk.title.data,
              file := some (joinSlash (s :: ss)).data, line := some (natDigits mk.line),
              len := (renderMarker mk).data.length }).title = mk.title := by
          show jsTrim ⟨(rmDoubleStar (jsTrim ⟨mk.title.data⟩).data).filter
            (fun c => c ≠ '_')⟩ = mk.title
          exact title_cleanup mk.title.data hTall hThead hTlast hTne'
        have h3 : (v11Finding input pos
            { sev := mk.sev.upper.data, title := mk.title.data,
              file := some (joinSlash (s :: ss)).data, line := some (natDigits mk.line),
              len := (renderMarker mk).data.length }).file = joinSlash mk.segs := by
          show (⟨(joinSlash (s :: ss)).data⟩ : String) = joinSlash mk.segs
          rw [hsegs]
        have h4 : (v11Finding input pos
            { sev := mk.sev.upper.data, title := mk.title.data,
              file := some (joinSlash (s :: ss)).data, line := some (natDigits mk.line),
              len := (renderMarker mk).data.length }).line =
            some ((mk.line : Nat) : Int) := by
          show (some (natDigits mk.line)).map (fun d => parseIntDigits ⟨d⟩) =
            some ((mk.line : Nat) : Int)
          simp [parseInt_natDigits]
        rw [h1, h2, h3, h4]
      · apply ih input f (pos + (renderMarker mk).data.length)
          (fun x hx => hwf x (List.mem_cons_of_mem _ hx))
        · rw [← List.drop_drop, hdrop']
          exact List.drop_left _ _
        · omega
        · simp only [List.length_cons] at hfuel
          omega

/-- C4: on the rendered text of any list of well-formed markers, the
v1.1.x marker-delimited extraction returns exactly one finding per marker,
in order, carrying the marker's lowercased severity, its title unchanged by
the emphasis cleanup, its slash-joined file path, and its parsed line
number. -/
theorem c4_marker_extraction (L : List SpecMarker) (hwf : ∀ m ∈ L, wfMarkerB m = true) :
    (extractIssuesFromTextV11 (renderMarkers L)).issues.length = L.length ∧
    (extractIssuesFromTextV11 (renderMarkers L)).issues.map
        (fun i => (i.severity, i.title, i.file, i.line)) =
      L.map (fun m => (m.sev.lower, m.title, joinSlash m.segs,
        some ((m.line : Nat) : Int))) := by
  have hfl : L.length ≤ (renderMarkers L).data.length + 1 := by
    have := renderMarkers_len L
    omega
  have hmap := v11Loop_render L (renderMarkers L).data
    ((renderMarkers L).data.length + 1) 0 hwf (by rw [List.drop_zero]) (by omega) hfl
  constructor
  · have hlen := congrArg List.length hmap
    simp only [List.length_map] at hlen
    exact hlen
  · exact hmap

theorem c4_marker_extraction_witness :
    (∀ m ∈ [c4WitnessMarker], wfMarkerB m = true) ∧
    ((extractIssuesFromTextV11 (renderMarkers [c4WitnessMarker])).issues.length = 1 ∧
     (extractIssuesFromTextV11 (renderMarkers [c4WitnessMarker])).issues.map
        (fun i => (i.severity, i.title, i.file, i.line)) =
      [c4WitnessMarker].map (fun m => (m.sev.lower, m.title, joinSlash m.segs,
        some ((m.line : Nat) : Int)))) :=
  ⟨by decide, c4_marker_extraction [c4WitnessMarker] (by decide)⟩
